import Mathlib

/-!
# Verification of `go-weave/models/rescan.go`

This file embeds the stack re-scanning garbage-collector model of
`rescan.go` in Lean and proves properties of it.

The Go program builds an ambiguous memory graph of six slots
(`mem[0]` is the nil slot, `mem[1]`, `mem[2]` are the two thread stacks,
`mem[3]` is the global heap root, `mem[4]`, `mem[5]` are further heap
objects), marks the global root, spawns two mutator threads, re-scans the
thread stacks, waits for in-flight write barriers on a reader/writer lock,
and finally checks that everything reachable from the global root and from
the stacks is marked.

Concurrency in the source is cooperative: a thread runs atomically between
explicit `sched.Sched()` suspension points.  The embedding linearizes the
recursive `mark` into an explicit instruction list (`MInstr`), whose
`.yld` entries are exactly the `sched.Sched()` calls of `mark`, and models
a trial as a small-step transition system over `Config`.  The machine
takes one *elementary* action per step (one `mark` transition, one loop
iteration, one barrier phase); a real cooperative segment is a finite
sequence of such steps executed back to back, so every behaviour of the
source scheduler is one of the machine's interleavings and safety proved
over all machine interleavings covers the source.

The writer side of the stop-the-world lock is held only inside the final
check, which contains no suspension point; hence only the reader count is
observable across steps and the lock is modeled by `Config.readers`
together with the guard `readers = 0` on the final check.

Go's `mark`, `checkmark` and the selection loop index `mem`/`marked`
out of range by panicking; the embedding guards those accesses
(`getObj`/`isMarked` use defaults, `checkRunF` reports the slot).  All
reachable states keep every pointer in range (proved below), where the
embedding and the source agree exactly.
-/

set_option maxHeartbeats 1000000

namespace Rescan

/-- An object in memory: left and right pointer fields (rescan.go `obj`). -/
structure Obj where
  l : Nat
  r : Nat
deriving DecidableEq, Repr

/-- `numThreads = 2` (rescan.go). -/
def numThreads : Nat := 2

/-- `stackBase = 1` (rescan.go). -/
def stackBase : Nat := 1

/-- `globalRoot = stackBase + numThreads = 3` (rescan.go). -/
def globalRoot : Nat := 3

/-- `len(mem) = 6` (rescan.go `main`: `mem = make([]obj, 6)`). -/
def memLen : Nat := 6

/-- The `writeMarks` build-time constant of rescan.go. -/
def writeMarks : Bool := true

/-- The `writeRestarts` build-time constant of rescan.go. -/
def writeRestarts : Bool := false

/-- Memory: a list of objects, indexed by pointer value; index 0 is nil. -/
abbrev Mem := List Obj

/-- The global mark set: one boolean per slot. -/
abbrev Marked := List Bool

/-- Read `mem[p]`; out-of-range reads give the zero object (the source
would panic there; no reachable state does this). -/
def getObj (mem : Mem) (p : Nat) : Obj := mem.getD p ⟨0, 0⟩

/-- Read `marked[p]`; out-of-range reads give `false`. -/
def isMarked (marked : Marked) (p : Nat) : Bool := marked.getD p false

/-- A pointer value is null or a heap index (`[globalRoot, memLen)`). -/
def PtrOK (p : Nat) : Prop := p = 0 ∨ (globalRoot ≤ p ∧ p < memLen)

instance (p : Nat) : Decidable (PtrOK p) := by unfold PtrOK; infer_instance

/-- One linearized activation frame of the Go `mark` recursion: `.call p`
is a pending `mark(p, marked, name)` call, `.yld` a pending
`sched.Sched()`. -/
inductive MInstr where
  | call (p : Nat)
  | yld
deriving DecidableEq, Repr

/-- Observable events of a sequential run: shared-lock acquire/release,
a `sched.Sched()` yield, setting a mark bit, the pointer write
`mem[slot].l = v`, and a scan-clock reset. -/
inductive Event where
  | rlockE
  | runlockE
  | yieldE
  | marksetE (p : Nat)
  | writeE (slot v : Nat)
  | restartE
deriving DecidableEq, Repr

/-- The guard of `mark` (rescan.go lines 203-205): return immediately when
`p` is nil or already marked; the two length guards stand in for the
panics Go would raise on an out-of-range index. -/
def markSkip (mem : Mem) (marked : Marked) (p : Nat) : Bool :=
  decide (p = 0) || decide (mem.length ≤ p) || decide (marked.length ≤ p) ||
    isMarked marked p

/-- The body of `mark(p)` once the guard fails (rescan.go lines 206-219):
set `marked[p]`, then `mark(mem[p].l); Sched(); mark(mem[p].r); Sched()`,
linearized onto the front of the instruction list. -/
def markExpand (mem : Mem) (p : Nat) (rest : List MInstr) : List MInstr :=
  .call (getObj mem p).l :: .yld :: .call (getObj mem p).r :: .yld :: rest

/-- One elementary transition of the linearized `mark` engine: consume a
`.yld` (one `sched.Sched()`), or process the head `.call`. -/
def markStep (mem : Mem) (marked : Marked) : List MInstr → Marked × List MInstr
  | [] => (marked, [])
  | .yld :: rest => (marked, rest)
  | .call p :: rest =>
    if markSkip mem marked p then (marked, rest)
    else (marked.set p true, markExpand mem p rest)

/-- Run the linearized `mark` engine to completion, collecting the event
trace; `fuel` bounds the recursion (the third component is `false` iff
the fuel ran out before the instruction list emptied). -/
def markRunF (mem : Mem) : Nat → Marked → List MInstr → Marked × List Event × Bool
  | 0, marked, il => (marked, [], il.isEmpty)
  | _ + 1, marked, [] => (marked, [], true)
  | fuel + 1, marked, .yld :: rest =>
    let r := markRunF mem fuel marked rest
    (r.1, .yieldE :: r.2.1, r.2.2)
  | fuel + 1, marked, .call p :: rest =>
    if markSkip mem marked p then markRunF mem fuel marked rest
    else
      let r := markRunF mem fuel (marked.set p true) (markExpand mem p rest)
      (r.1, .marksetE p :: r.2.1, r.2.2)

/-- Number of unmarked entries of the mark set. -/
def unmarkedCount (marked : Marked) : Nat := marked.count false

/-- Sufficient fuel for `markRunF`: each elementary step either drops one
instruction or marks one new slot while adding four instructions. -/
def markFuel (marked : Marked) (il : List MInstr) : Nat :=
  il.length + 4 * unmarkedCount marked + 1

/-- A complete sequential run of `mark` on the given instruction list:
the resulting mark set and the emitted event trace. -/
def markFull (mem : Mem) (marked : Marked) (il : List MInstr) :
    Marked × List Event :=
  let r := markRunF mem (markFuel marked il) marked il
  (r.1, r.2.1)

/-- The result of the DFS of `checkmark` (rescan.go lines 222-240):
a fault carrying the unmarked slot, or the final `checkmarked` set. -/
inductive ChkRes where
  | fault (k : Nat)
  | finished (cm : List Bool)
  | fuelOut
deriving DecidableEq, Repr

/-- The worklist form of `checkmark`'s inner `mark1` DFS: skip nil,
fault on an unmarked slot, skip already-checkmarked slots, else set
`checkmarked[p]` and visit `mem[p].l` then `mem[p].r`.  The length guard
stands in for Go's index panic and is unreachable from valid states. -/
def checkRunF (mem : Mem) (marked : Marked) :
    Nat → List Bool → List Nat → ChkRes
  | 0, cm, st => if st.isEmpty then .finished cm else .fuelOut
  | _ + 1, cm, [] => .finished cm
  | fuel + 1, cm, p :: rest =>
    if p = 0 then checkRunF mem marked fuel cm rest
    else if isMarked marked p = false then .fault p
    else if cm.getD p false then checkRunF mem marked fuel cm rest
    else if cm.length ≤ p then .fault p
    else checkRunF mem marked fuel (cm.set p true)
        ((getObj mem p).l :: (getObj mem p).r :: rest)

/-- rescan.go `checkmark(p)`: fresh `checkmarked` set, DFS from `p`;
`some k` is the `"object not marked: k"` panic, `none` a normal return.
It reads `mem` and `marked` and touches no global state. -/
def checkmark (mem : Mem) (marked : Marked) (p : Nat) : Option Nat :=
  match checkRunF mem marked (2 * mem.length + 2)
      (List.replicate mem.length false) [p] with
  | .fault k => some k
  | _ => none

/-- rescan.go `ambHeapPointer`: `x = sched.Amb(len(mem)-globalRoot+1)`
yields nil for `x = 0` and the heap pointer `globalRoot + (x-1)`
otherwise. -/
def ambHeapPointer (x : Nat) : Nat :=
  if x = 0 then 0 else globalRoot + (x - 1)

/-- The scratch reachability set of `ambReachableHeapPointer` (and the
mark set right after `main` marks the global root): a complete `mark`
from `globalRoot` on a fresh all-false set. -/
def reachableFromRoot (mem : Mem) : Marked :=
  (markFull mem (List.replicate mem.length false) [.call globalRoot]).1

/-- `nreachable` of rescan.go: the number of set entries of
`reachable[globalRoot:]`. -/
def countReachable (mem : Mem) : Nat :=
  (((reachableFromRoot mem).drop globalRoot).filter id).length

/-- The selection loop of `ambReachableHeapPointer` over
`reachable[globalRoot:]`: return `globalRoot + i` for the `x`-th set
entry; falling off the end is Go's `panic("not reached")`. -/
def selectLoop : List Bool → Nat → Nat → Option Nat
  | [], _, _ => none
  | b :: rest, x, i =>
    if b then
      if x = 0 then some (globalRoot + i) else selectLoop rest (x - 1) (i + 1)
    else selectLoop rest x (i + 1)

/-- rescan.go `ambReachableHeapPointer` with the ambiguous choice `x`
(`sched.Amb(nreachable)`) made explicit. -/
def ambReachableHeapPointer (mem : Mem) (x : Nat) : Option Nat :=
  selectLoop ((reachableFromRoot mem).drop globalRoot) x 0

/-- The sequential outcome of one `wbarrier` activation. -/
structure BarrierResult where
  mem : Mem
  marked : Marked
  scanClock : Nat
  trace : List Event
deriving DecidableEq, Repr

/-- rescan.go `wbarrier(slot, val)` run as one sequential activation with
policy flags `wm = writeMarks`, `wr = writeRestarts`: for non-nil `val`,
under `wm` acquire the shared lock, `mark(mem[val].l)`, release; under
`wr` reset the scan clock when `marked[val]` is unset; finally write
`mem[slot].l = mem[val].l` and yield once. -/
def wbarrierSeq (wm wr : Bool) (mem : Mem) (marked : Marked)
    (scanClock : Nat) (slot val : Nat) : BarrierResult :=
  let step1 : Marked × List Event :=
    if val ≠ 0 ∧ wm = true then
      let r := markFull mem marked [.call (getObj mem val).l]
      (r.1, Event.rlockE :: r.2 ++ [Event.runlockE])
    else (marked, [])
  let step2 : Nat × List Event :=
    if val ≠ 0 ∧ wr = true ∧ isMarked step1.1 val = false then
      (0, [Event.restartE])
    else (scanClock, [])
  { mem := mem.set slot ⟨(getObj mem val).l, (getObj mem slot).r⟩
    marked := step1.1
    scanClock := step2.1
    trace := step1.2 ++ step2.2 ++
      [Event.writeE slot (getObj mem val).l, Event.yieldE] }

/-- The collector's control point: inside the re-scan loop (with the
in-progress stack mark, if any), blocked acquiring the exclusive lock, or
done with the final check's verdict. -/
inductive MainPC where
  | rescanning (m : Option (List MInstr))
  | lockWait
  | finished (fault : Option Nat)
deriving DecidableEq, Repr

/-- A mutator's control point (rescan.go `mutator`): about to publish,
holding the shared lock while barrier-marking, about to load a heap
pointer onto its stack, or terminated. -/
inductive MutPC where
  | mstart
  | barrierMark (obj : Nat) (il : List MInstr)
  | loadPtr
  | mdone
deriving DecidableEq, Repr

/-- A machine state of one trial. -/
structure Config where
  mem : Mem
  marked : Marked
  scanClock : Nat
  readers : Nat
  mainPC : MainPC
  mut0 : MutPC
  mut1 : MutPC
deriving DecidableEq, Repr

def getMut (c : Config) : Nat → MutPC
  | 0 => c.mut0
  | _ => c.mut1

def setMut (c : Config) (i : Nat) (s : MutPC) : Config :=
  match i with
  | 0 => { c with mut0 := s }
  | _ => { c with mut1 := s }

/-- The final check of `main` (rescan.go lines 110-113): `checkmark` the
global root, then each thread's stack slot; the first fault aborts. -/
def checkAll (mem : Mem) (marked : Marked) : Option Nat :=
  match checkmark mem marked globalRoot with
  | some k => some k
  | none =>
    match checkmark mem marked (getObj mem stackBase).l with
    | some k => some k
    | none => checkmark mem marked (getObj mem (stackBase + 1)).l

/-- One step of the collector (`main`, rescan.go lines 94-113): a re-scan
loop iteration (`scanClock++; mark(mem[stackBase+scanClock-1].l)` starts a
stack mark), one elementary transition of the in-progress mark, loop exit
to `world.Lock()`, or — once no reader holds the lock — the final check.
`none` means the collector is blocked or finished. -/
def mainStepF (c : Config) : Option Config :=
  match c.mainPC with
  | .rescanning none =>
    if c.scanClock < numThreads then
      some { c with
        scanClock := c.scanClock + 1
        mainPC := .rescanning
          (some [.call (getObj c.mem (stackBase + c.scanClock)).l]) }
    else some { c with mainPC := .lockWait }
  | .rescanning (some il) =>
    match il with
    | [] => some { c with mainPC := .rescanning none }
    | _ :: _ =>
      let r := markStep c.mem c.marked il
      some { c with marked := r.1, mainPC := .rescanning (some r.2) }
  | .lockWait =>
    if c.readers = 0 then
      some { c with mainPC := .finished (checkAll c.mem c.marked) }
    else none
  | .finished _ => none

/-- One step of mutator `i` (rescan.go `mutator` and the inlined
`wbarrier(obj, sptr)` with `val = sptr = stackBase + i ≠ 0`): pick a
reachable heap object and enter the barrier (under `wm`, take the shared
lock and start `mark(mem[sptr].l)`; otherwise apply the restart policy
and write at once); advance the in-progress barrier mark by one
elementary transition; on completion release the lock, apply the restart
policy, and perform the write; finally load an ambiguous reachable heap
object's left field onto the own stack slot. -/
def mutStepF (wm wr : Bool) (i choice : Nat) (c : Config) : Option Config :=
  let sptr := stackBase + i
  match getMut c i with
  | .mstart =>
    match ambReachableHeapPointer c.mem choice with
    | none => none
    | some obj =>
      if wm then
        some (setMut { c with readers := c.readers + 1 } i
          (.barrierMark obj [.call (getObj c.mem sptr).l]))
      else
        let sc := if wr ∧ isMarked c.marked sptr = false then 0 else c.scanClock
        some (setMut { c with
          scanClock := sc
          mem := c.mem.set obj ⟨(getObj c.mem sptr).l, (getObj c.mem obj).r⟩ }
          i .loadPtr)
  | .barrierMark obj il =>
    match il with
    | [] =>
      let sc := if wr ∧ isMarked c.marked sptr = false then 0 else c.scanClock
      some (setMut { c with
        readers := c.readers - 1
        scanClock := sc
        mem := c.mem.set obj ⟨(getObj c.mem sptr).l, (getObj c.mem obj).r⟩ }
        i .loadPtr)
    | _ :: _ =>
      let r := markStep c.mem c.marked il
      some (setMut { c with marked := r.1 } i (.barrierMark obj r.2))
  | .loadPtr =>
    match ambReachableHeapPointer c.mem choice with
    | none => none
    | some obj =>
      some (setMut { c with
        mem := c.mem.set sptr ⟨(getObj c.mem obj).l, (getObj c.mem sptr).r⟩ }
        i .mdone)
  | .mdone => none

/-- The interleaving relation of one trial: at each step either the
collector or one of the mutators (with an arbitrary ambiguous choice)
takes one elementary action. -/
inductive Step (wm wr : Bool) : Config → Config → Prop where
  | collector (c c' : Config) : mainStepF c = some c' → Step wm wr c c'
  | mutator (i choice : Nat) (c c' : Config) : i < numThreads →
      mutStepF wm wr i choice c = some c' → Step wm wr c c'

/-- Reachability in the trial's transition system. -/
def Reachable (wm wr : Bool) (c c' : Config) : Prop :=
  Relation.ReflTransGen (Step wm wr) c c'

/-- The state right after rescan.go `main` lines 69-91: the graph is
built, the mark set holds exactly `main`'s initial `mark(globalRoot)`
(which runs before any mutator is spawned), the scan clock is zero, the
lock is free, and the collector is at the head of the re-scan loop. -/
def initConfig (mem : Mem) : Config :=
  { mem := mem
    marked := reachableFromRoot mem
    scanClock := 0
    readers := 0
    mainPC := .rescanning none
    mut0 := .mstart
    mut1 := .mstart }

/-- A memory graph as produced by the construction loop of `main`
(rescan.go lines 69-76): six slots, a zero nil slot, every left field an
`ambHeapPointer` result, every heap right field likewise, stack right
fields untouched. -/
def GraphOK (mem : Mem) : Prop :=
  mem.length = memLen ∧ getObj mem 0 = ⟨0, 0⟩ ∧
    (∀ i, i < memLen → PtrOK (getObj mem i).l) ∧
    (∀ i, i < memLen → PtrOK (getObj mem i).r) ∧
    (∀ i, i < globalRoot → (getObj mem i).r = 0)

instance (mem : Mem) : Decidable (GraphOK mem) := by
  unfold GraphOK; infer_instance

/-- The memory built by `main`'s construction loop from the ambiguous
choices `cl i` (left fields) and `cr i` (heap right fields), each a
`sched.Amb(len(mem) - globalRoot + 1)` value. -/
def buildMem (cl cr : Nat → Nat) : Mem :=
  [⟨0, 0⟩, ⟨ambHeapPointer (cl 1), 0⟩, ⟨ambHeapPointer (cl 2), 0⟩,
   ⟨ambHeapPointer (cl 3), ambHeapPointer (cr 3)⟩,
   ⟨ambHeapPointer (cl 4), ambHeapPointer (cr 4)⟩,
   ⟨ambHeapPointer (cl 5), ambHeapPointer (cr 5)⟩]

/-- `Reaches mem p q`: object `q` is reachable from the non-nil pointer
`p` by following `l`/`r` fields through non-nil pointers. -/
inductive Reaches (mem : Mem) : Nat → Nat → Prop where
  | refl (p : Nat) : p ≠ 0 → Reaches mem p p
  | viaL (p q : Nat) : Reaches mem p q → (getObj mem q).l ≠ 0 →
      Reaches mem p ((getObj mem q).l)
  | viaR (p q : Nat) : Reaches mem p q → (getObj mem q).r ≠ 0 →
      Reaches mem p ((getObj mem q).r)

/-! ## Basic lemmas about the mark set -/

theorem isMarked_set_self {l : Marked} {p : Nat} (h : p < l.length) :
    isMarked (l.set p true) p = true := by
  unfold isMarked
  induction l generalizing p with
  | nil => simp at h
  | cons b t ih =>
    cases p with
    | zero => simp [List.set, List.getD]
    | succ q =>
      simp only [List.set, List.length_cons] at *
      exact ih (by omega)

theorem isMarked_set_ne {l : Marked} {p q : Nat} (h : q ≠ p) :
    isMarked (l.set p true) q = isMarked l q := by
  unfold isMarked
  induction l generalizing p q with
  | nil => simp
  | cons b t ih =>
    cases p with
    | zero =>
      cases q with
      | zero => omega
      | succ q' => simp [List.set, List.getD]
    | succ p' =>
      cases q with
      | zero => simp [List.set, List.getD]
      | succ q' =>
        simp only [List.set, List.getD_cons_succ]
        exact ih (by omega)

theorem isMarked_set_mono {l : Marked} {p q : Nat}
    (h : isMarked l q = true) : isMarked (l.set p true) q = true := by
  by_cases hqp : q = p
  · subst hqp
    have hlen : q < l.length := by
      by_contra hc
      unfold isMarked at h
      rw [List.getD_eq_default] at h
      · exact absurd h (by simp)
      · omega
    exact isMarked_set_self hlen
  · rw [isMarked_set_ne hqp]; exact h

theorem isMarked_of_lt_length {l : Marked} {q : Nat}
    (h : isMarked l q = true) : q < l.length := by
  by_contra hc
  unfold isMarked at h
  rw [List.getD_eq_default] at h
  · exact absurd h (by simp)
  · omega

theorem count_false_set {l : Marked} {p : Nat} (hlen : p < l.length)
    (hfalse : l.getD p false = false) :
    (l.set p true).count false + 1 = l.count false := by
  induction l generalizing p with
  | nil => simp at hlen
  | cons b t ih =>
    cases p with
    | zero =>
      simp only [List.getD_cons_zero] at hfalse
      subst hfalse
      simp [List.set, List.count_cons]
    | succ q =>
      simp only [List.length_cons] at hlen
      simp only [List.getD_cons_succ] at hfalse
      simp only [List.set, List.count_cons]
      have := ih (by omega) hfalse
      omega

/-! ## Lemmas about the linearized mark engine -/

/-- The pending `mark` call targets of an instruction list: the gray set
contributed by one in-progress mark activation. -/
def targetsOf : List MInstr → List Nat
  | [] => []
  | .yld :: rest => targetsOf rest
  | .call p :: rest => p :: targetsOf rest

theorem markStep_length (mem : Mem) (marked : Marked) (il : List MInstr) :
    (markStep mem marked il).1.length = marked.length := by
  unfold markStep
  match il with
  | [] => rfl
  | .yld :: rest => rfl
  | .call p :: rest =>
    by_cases h : markSkip mem marked p = true
    · simp [h]
    · simp [h]

theorem markStep_mono (mem : Mem) (marked : Marked) (il : List MInstr)
    {q : Nat} (h : isMarked marked q = true) :
    isMarked (markStep mem marked il).1 q = true := by
  unfold markStep
  match il with
  | [] => exact h
  | .yld :: rest => exact h
  | .call p :: rest =>
    by_cases hs : markSkip mem marked p = true
    · simpa [hs]
    · simp only [hs]
      simpa using isMarked_set_mono h

/-- Where a pending target goes across one elementary mark transition: it
is either already handled (nil, out of range, or marked afterwards) or
still pending afterwards. -/
theorem markStep_target (mem : Mem) (marked : Marked) (il : List MInstr)
    {q : Nat} (h : q ∈ targetsOf il) :
    q = 0 ∨ mem.length ≤ q ∨ marked.length ≤ q ∨
      isMarked (markStep mem marked il).1 q = true ∨
      q ∈ targetsOf (markStep mem marked il).2 := by
  unfold markStep
  match il with
  | [] => simp [targetsOf] at h
  | .yld :: rest =>
    simp only [targetsOf] at h
    exact Or.inr (Or.inr (Or.inr (Or.inr h)))
  | .call p :: rest =>
    simp only [targetsOf, List.mem_cons] at h
    by_cases hs : markSkip mem marked p = true
    · simp only [hs, if_true]
      rcases h with h | h
      · subst h
        unfold markSkip at hs
        simp only [Bool.or_eq_true, decide_eq_true_eq] at hs
        rcases hs with ((h0 | h1) | h2) | h3
        · exact Or.inl h0
        · exact Or.inr (Or.inl h1)
        · exact Or.inr (Or.inr (Or.inl h2))
        · exact Or.inr (Or.inr (Or.inr (Or.inl h3)))
      · exact Or.inr (Or.inr (Or.inr (Or.inr h)))
    · simp only [hs, if_false, Bool.false_eq_true]
      rcases h with h | h
      · subst h
        unfold markSkip at hs
        simp only [Bool.or_eq_true, decide_eq_true_eq, not_or,
          Bool.not_eq_true] at hs
        refine Or.inr (Or.inr (Or.inr (Or.inl ?_)))
        exact isMarked_set_self (by omega)
      · refine Or.inr (Or.inr (Or.inr (Or.inr ?_)))
        simp [markExpand, targetsOf, h]

/-- A slot newly marked by one elementary mark transition was a pending
target of the instruction list. -/
theorem markStep_new_mark (mem : Mem) (marked : Marked) (il : List MInstr)
    {q : Nat} (h : isMarked (markStep mem marked il).1 q = true)
    (hq : isMarked marked q = false) : q ∈ targetsOf il := by
  unfold markStep at h
  match il with
  | [] => rw [h] at hq; cases hq
  | .yld :: rest => rw [h] at hq; cases hq
  | .call p :: rest =>
    by_cases hs : markSkip mem marked p = true
    · simp only [hs, if_true] at h
      rw [h] at hq; cases hq
    · simp only [hs, if_false, Bool.false_eq_true] at h
      by_cases hqp : q = p
      · subst hqp; simp [targetsOf]
      · rw [isMarked_set_ne hqp] at h
        rw [h] at hq; cases hq

/-- The pending targets created by one elementary mark transition are
nil or fields of an in-range slot. -/
theorem markStep_new_targets (mem : Mem) (marked : Marked)
    (il : List MInstr) {q : Nat}
    (h : q ∈ targetsOf (markStep mem marked il).2) :
    q ∈ targetsOf il ∨
      ∃ p, p < mem.length ∧ (q = (getObj mem p).l ∨ q = (getObj mem p).r) := by
  unfold markStep at h
  match il with
  | [] => simp [targetsOf] at h
  | .yld :: rest => exact Or.inl h
  | .call p :: rest =>
    by_cases hs : markSkip mem marked p = true
    · simp only [hs, if_true] at h
      exact Or.inl (by simp [targetsOf, h])
    · simp only [hs, if_false, Bool.false_eq_true] at h
      simp only [markExpand, targetsOf, List.mem_cons] at h
      unfold markSkip at hs
      simp only [Bool.or_eq_true, decide_eq_true_eq, not_or,
        Bool.not_eq_true] at hs
      rcases h with h | h | h
      · exact Or.inr ⟨p, by omega, Or.inl h⟩
      · exact Or.inr ⟨p, by omega, Or.inr h⟩
      · exact Or.inl (by simp [targetsOf, h])

theorem markRunF_length (mem : Mem) :
    ∀ (fuel : Nat) (marked : Marked) (il : List MInstr),
      (markRunF mem fuel marked il).1.length = marked.length := by
  intro fuel
  induction fuel with
  | zero => intro marked il; rfl
  | succ fuel ih =>
    intro marked il
    match il with
    | [] => rfl
    | .yld :: rest => simpa [markRunF] using ih marked rest
    | .call p :: rest =>
      by_cases hs : markSkip mem marked p = true
      · simpa [markRunF, hs] using ih marked rest
      · simp only [markRunF, hs, if_false, Bool.false_eq_true]
        rw [ih]
        simp

theorem markRunF_mono (mem : Mem) :
    ∀ (fuel : Nat) (marked : Marked) (il : List MInstr) {q : Nat},
      isMarked marked q = true → isMarked (markRunF mem fuel marked il).1 q = true := by
  intro fuel
  induction fuel with
  | zero => intro marked il q h; exact h
  | succ fuel ih =>
    intro marked il q h
    match il with
    | [] => exact h
    | .yld :: rest => simpa [markRunF] using ih marked rest h
    | .call p :: rest =>
      by_cases hs : markSkip mem marked p = true
      · simpa [markRunF, hs] using ih marked rest h
      · simp only [markRunF, hs, if_false, Bool.false_eq_true]
        exact ih _ _ (isMarked_set_mono h)

/-- With fuel above `markFuel`'s bound the run always completes. -/
theorem markRunF_adequate (mem : Mem) :
    ∀ (fuel : Nat) (marked : Marked) (il : List MInstr),
      il.length + 4 * unmarkedCount marked < fuel →
      (markRunF mem fuel marked il).2.2 = true := by
  intro fuel
  induction fuel with
  | zero => intro marked il h; omega
  | succ fuel ih =>
    intro marked il h
    match il with
    | [] => rfl
    | .yld :: rest =>
      simp only [markRunF]
      exact ih marked rest (by simp at h ⊢; omega)
    | .call p :: rest =>
      by_cases hs : markSkip mem marked p = true
      · simp only [markRunF, hs, if_true]
        exact ih marked rest (by simp at h ⊢; omega)
      · simp only [markRunF, hs, if_false, Bool.false_eq_true]
        unfold markSkip at hs
        simp only [Bool.or_eq_true, decide_eq_true_eq, not_or,
          Bool.not_eq_true] at hs
        obtain ⟨⟨⟨h0, h1⟩, h2⟩, h3⟩ := hs
        have hcnt : unmarkedCount (marked.set p true) + 1 = unmarkedCount marked := by
          unfold unmarkedCount
          exact count_false_set (by omega) h3
        apply ih
        simp only [markExpand, List.length_cons] at h ⊢
        omega

theorem markFull_complete_run (mem : Mem) (marked : Marked)
    (il : List MInstr) :
    (markRunF mem (markFuel marked il) marked il).2.2 = true :=
  markRunF_adequate mem _ marked il (by unfold markFuel; omega)

/-- A pointer is handled with respect to memory and a mark set:
nil, out of range, or marked. -/
def fieldDone (mem : Mem) (m : Marked) (f : Nat) : Prop :=
  f = 0 ∨ mem.length ≤ f ∨ m.length ≤ f ∨ isMarked m f = true

/-- A completed mark run has handled every pending target. -/
theorem markRunF_targets (mem : Mem) :
    ∀ (fuel : Nat) (marked : Marked) (il : List MInstr),
      (markRunF mem fuel marked il).2.2 = true →
      ∀ q ∈ targetsOf il, fieldDone mem (markRunF mem fuel marked il).1 q := by
  intro fuel
  induction fuel with
  | zero =>
    intro marked il hok q hq
    simp only [markRunF, List.isEmpty_eq_true] at hok
    subst hok
    simp [targetsOf] at hq
  | succ fuel ih =>
    intro marked il hok q hq
    match il with
    | [] => simp [targetsOf] at hq
    | .yld :: rest =>
      simp only [markRunF] at hok ⊢
      exact ih marked rest hok q hq
    | .call p :: rest =>
      simp only [targetsOf, List.mem_cons] at hq
      by_cases hs : markSkip mem marked p = true
      · simp only [markRunF, hs, if_true] at hok ⊢
        rcases hq with hq | hq
        · subst hq
          unfold markSkip at hs
          simp only [Bool.or_eq_true, decide_eq_true_eq] at hs
          rcases hs with ((h0 | h1) | h2) | h3
          · exact Or.inl h0
          · exact Or.inr (Or.inl h1)
          · refine Or.inr (Or.inr (Or.inl ?_))
            rw [markRunF_length]; exact h2
          · exact Or.inr (Or.inr (Or.inr (markRunF_mono mem fuel marked rest h3)))
        · exact ih marked rest hok q hq
      · simp only [markRunF, hs, if_false, Bool.false_eq_true] at hok ⊢
        unfold markSkip at hs
        simp only [Bool.or_eq_true, decide_eq_true_eq, not_or,
          Bool.not_eq_true] at hs
        obtain ⟨⟨⟨h0, h1⟩, h2⟩, h3⟩ := hs
        rcases hq with hq | hq
        · subst hq
          refine Or.inr (Or.inr (Or.inr ?_))
          exact markRunF_mono mem fuel _ _ (isMarked_set_self (by omega))
        · have : q ∈ targetsOf (markExpand mem p rest) := by
            simp [markExpand, targetsOf, hq]
          exact ih _ _ hok q this

/-- After a completed mark run, every marked slot was already marked or
has both of its fields handled: the resulting mark set is closed up to
pending work elsewhere. -/
theorem markRunF_closed (mem : Mem) :
    ∀ (fuel : Nat) (marked : Marked) (il : List MInstr),
      (markRunF mem fuel marked il).2.2 = true →
      ∀ q, isMarked (markRunF mem fuel marked il).1 q = true →
        isMarked marked q = true ∨
          (fieldDone mem (markRunF mem fuel marked il).1 (getObj mem q).l ∧
           fieldDone mem (markRunF mem fuel marked il).1 (getObj mem q).r) := by
  intro fuel
  induction fuel with
  | zero => intro marked il _ q hq; exact Or.inl hq
  | succ fuel ih =>
    intro marked il hok q hq
    match il with
    | [] => exact Or.inl hq
    | .yld :: rest =>
      simp only [markRunF] at hok hq ⊢
      exact ih marked rest hok q hq
    | .call p :: rest =>
      by_cases hs : markSkip mem marked p = true
      · simp only [markRunF, hs, if_true] at hok hq ⊢
        exact ih marked rest hok q hq
      · simp only [markRunF, hs, if_false, Bool.false_eq_true] at hok hq ⊢
        rcases ih _ _ hok q hq with hold | hcov
        · by_cases hqp : q = p
          · subst hqp
            refine Or.inr ⟨?_, ?_⟩
            · have : (getObj mem q).l ∈ targetsOf (markExpand mem q rest) := by
                simp [markExpand, targetsOf]
              exact markRunF_targets mem fuel _ _ hok _ this
            · have : (getObj mem q).r ∈ targetsOf (markExpand mem q rest) := by
                simp [markExpand, targetsOf]
              exact markRunF_targets mem fuel _ _ hok _ this
          · rw [isMarked_set_ne hqp] at hold
            exact Or.inl hold
        · exact Or.inr hcov

theorem Reaches_trans {mem : Mem} {p q s : Nat}
    (h1 : Reaches mem p q) (h2 : Reaches mem q s) : Reaches mem p s := by
  induction h2 with
  | refl _ => exact h1
  | viaL _ _ hne ih => exact Reaches.viaL _ _ ih hne
  | viaR _ _ hne ih => exact Reaches.viaR _ _ ih hne

/-- Every slot marked by a mark run was already marked or is reachable
from a non-nil pending target. -/
theorem markRunF_sound (mem : Mem) :
    ∀ (fuel : Nat) (marked : Marked) (il : List MInstr) (q : Nat),
      isMarked (markRunF mem fuel marked il).1 q = true →
      isMarked marked q = true ∨
        ∃ t ∈ targetsOf il, t ≠ 0 ∧ Reaches mem t q := by
  intro fuel
  induction fuel with
  | zero => intro marked il q hq; exact Or.inl hq
  | succ fuel ih =>
    intro marked il q hq
    match il with
    | [] => exact Or.inl hq
    | .yld :: rest =>
      simp only [markRunF] at hq
      rcases ih marked rest q hq with h | ⟨t, ht, hne, hr⟩
      · exact Or.inl h
      · exact Or.inr ⟨t, ht, hne, hr⟩
    | .call p :: rest =>
      by_cases hs : markSkip mem marked p = true
      · simp only [markRunF, hs, if_true] at hq
        rcases ih marked rest q hq with h | ⟨t, ht, hne, hr⟩
        · exact Or.inl h
        · exact Or.inr ⟨t, by simp [targetsOf, ht], hne, hr⟩
      · simp only [markRunF, hs, if_false, Bool.false_eq_true] at hq
        unfold markSkip at hs
        simp only [Bool.or_eq_true, decide_eq_true_eq, not_or,
          Bool.not_eq_true] at hs
        obtain ⟨⟨⟨h0, h1⟩, h2⟩, h3⟩ := hs
        rcases ih _ _ q hq with h | ⟨t, ht, hne, hr⟩
        · by_cases hqp : q = p
          · subst hqp
            exact Or.inr ⟨q, by simp [targetsOf], h0, Reaches.refl q h0⟩
          · rw [isMarked_set_ne hqp] at h
            exact Or.inl h
        · simp only [markExpand, targetsOf, List.mem_cons] at ht
          rcases ht with ht | ht | ht
          · subst ht
            refine Or.inr ⟨p, by simp [targetsOf], h0, ?_⟩
            exact Reaches_trans (Reaches.viaL p p (Reaches.refl p h0) hne) hr
          · subst ht
            refine Or.inr ⟨p, by simp [targetsOf], h0, ?_⟩
            exact Reaches_trans (Reaches.viaR p p (Reaches.refl p h0) hne) hr
          · exact Or.inr ⟨t, by simp [targetsOf, ht], hne, hr⟩

/-! ## Lemmas about the `checkmark` DFS -/

theorem checkRunF_adequate (mem : Mem) (marked : Marked) :
    ∀ (fuel : Nat) (cm : List Bool) (st : List Nat),
      st.length + 2 * cm.count false < fuel →
      checkRunF mem marked fuel cm st ≠ .fuelOut := by
  intro fuel
  induction fuel with
  | zero => intro cm st h; omega
  | succ fuel ih =>
    intro cm st h
    match st with
    | [] => simp [checkRunF]
    | p :: rest =>
      simp only [checkRunF]
      by_cases hp0 : p = 0
      · simp only [hp0, if_true]
        exact ih cm rest (by simp at h ⊢; omega)
      · simp only [hp0, if_false]
        by_cases hm : isMarked marked p = false
        · simp [hm]
        · simp only [hm, if_false, Bool.false_eq_true]
          by_cases hcm : cm.getD p false = true
          · simp only [hcm, if_true]
            exact ih cm rest (by simp at h ⊢; omega)
          · simp only [hcm, if_false, Bool.false_eq_true]
            by_cases hlen : cm.length ≤ p
            · simp [hlen]
            · simp only [hlen, if_false]
              apply ih
              have hcnt : (cm.set p true).count false + 1 = cm.count false :=
                count_false_set (by omega) (by simpa using hcm)
              simp at h ⊢
              omega

theorem checkRunF_cm_length (mem : Mem) (marked : Marked) :
    ∀ (fuel : Nat) (cm : List Bool) (st : List Nat) (cmF : List Bool),
      checkRunF mem marked fuel cm st = .finished cmF →
      cmF.length = cm.length := by
  intro fuel
  induction fuel with
  | zero =>
    intro cm st cmF h
    simp only [checkRunF] at h
    by_cases he : st.isEmpty
    · simp only [he, if_true, ChkRes.finished.injEq] at h
      rw [h]
    · simp [he] at h
  | succ fuel ih =>
    intro cm st cmF h
    match st with
    | [] =>
      simp only [checkRunF, ChkRes.finished.injEq] at h
      rw [h]
    | p :: rest =>
      simp only [checkRunF] at h
      by_cases hp0 : p = 0
      · simp only [hp0, if_true] at h; exact ih cm rest cmF h
      · simp only [hp0, if_false] at h
        by_cases hm : isMarked marked p = false
        · simp [hm] at h
        · simp only [hm, if_false, Bool.false_eq_true] at h
          by_cases hcm : cm.getD p false = true
          · simp only [hcm, if_true] at h; exact ih cm rest cmF h
          · simp only [hcm, if_false, Bool.false_eq_true] at h
            by_cases hlen : cm.length ≤ p
            · simp [hlen] at h
            · simp only [hlen, if_false] at h
              have := ih _ _ _ h
              simpa using this

/-- A fault of the DFS names a slot that is reachable from the root set
and unmarked (given consistent lengths, so that the index guard is
dead). -/
theorem checkRunF_fault_sound (mem : Mem) (marked : Marked) (root : Nat)
    (hml : marked.length ≤ mem.length) :
    ∀ (fuel : Nat) (cm : List Bool) (st : List Nat) (k : Nat),
      cm.length = mem.length →
      (∀ q ∈ st, q = 0 ∨ Reaches mem root q) →
      checkRunF mem marked fuel cm st = .fault k →
      Reaches mem root k ∧ isMarked marked k = false := by
  intro fuel
  induction fuel with
  | zero =>
    intro cm st k _ _ h
    simp only [checkRunF] at h
    by_cases he : st.isEmpty <;> simp [he] at h
  | succ fuel ih =>
    intro cm st k hcm hst h
    match st with
    | [] => simp [checkRunF] at h
    | p :: rest =>
      have hp' := hst p (by simp)
      simp only [checkRunF] at h
      by_cases hp0 : p = 0
      · simp only [hp0, if_true] at h
        exact ih cm rest k hcm (fun q hq => hst q (by simp [hq])) h
      · simp only [hp0, if_false] at h
        have hpr : Reaches mem root p := by
          rcases hp' with h' | h'
          · exact absurd h' hp0
          · exact h'
        by_cases hm : isMarked marked p = false
        · simp only [hm, if_true, ChkRes.fault.injEq] at h
          subst h
          exact ⟨hpr, hm⟩
        · simp only [hm, if_false, Bool.false_eq_true] at h
          by_cases hcmp : cm.getD p false = true
          · simp only [hcmp, if_true] at h
            exact ih cm rest k hcm (fun q hq => hst q (by simp [hq])) h
          · simp only [hcmp, if_false, Bool.false_eq_true] at h
            by_cases hlen : cm.length ≤ p
            · exfalso
              simp only [Bool.not_eq_false] at hm
              have := isMarked_of_lt_length hm
              omega
            · simp only [hlen, if_false] at h
              refine ih _ _ k (by simpa using hcm) ?_ h
              intro q hq
              simp only [List.mem_cons] at hq
              rcases hq with hq | hq | hq
              · subst hq
                by_cases hz : (getObj mem p).l = 0
                · exact Or.inl hz
                · exact Or.inr (Reaches.viaL root p hpr hz)
              · subst hq
                by_cases hz : (getObj mem p).r = 0
                · exact Or.inl hz
                · exact Or.inr (Reaches.viaR root p hpr hz)
              · exact hst q (by simp [hq])

theorem checkRunF_cm_mono (mem : Mem) (marked : Marked) :
    ∀ (fuel : Nat) (cm : List Bool) (st : List Nat) (cmF : List Bool),
      checkRunF mem marked fuel cm st = .finished cmF →
      ∀ q, cm.getD q false = true → cmF.getD q false = true := by
  intro fuel
  induction fuel with
  | zero =>
    intro cm st cmF h q hq
    simp only [checkRunF] at h
    by_cases he : st.isEmpty
    · simp only [he, if_true, ChkRes.finished.injEq] at h
      rw [← h]; exact hq
    · simp [he] at h
  | succ fuel ih =>
    intro cm st cmF h q hq
    match st with
    | [] =>
      simp only [checkRunF, ChkRes.finished.injEq] at h
      rw [← h]; exact hq
    | p :: rest =>
      simp only [checkRunF] at h
      by_cases hp0 : p = 0
      · simp only [hp0, if_true] at h; exact ih cm rest cmF h q hq
      · simp only [hp0, if_false] at h
        by_cases hm : isMarked marked p = false
        · simp [hm] at h
        · simp only [hm, if_false, Bool.false_eq_true] at h
          by_cases hcmp : cm.getD p false = true
          · simp only [hcmp, if_true] at h; exact ih cm rest cmF h q hq
          · simp only [hcmp, if_false, Bool.false_eq_true] at h
            by_cases hlen : cm.length ≤ p
            · simp [hlen] at h
            · simp only [hlen, if_false] at h
              refine ih _ _ cmF h q ?_
              by_cases hqp : q = p
              · subst hqp
                have : isMarked (cm.set q true) q = true :=
                  isMarked_set_self (by omega)
                simpa [isMarked] using this
              · have : isMarked (cm.set p true) q = isMarked cm q :=
                  isMarked_set_ne hqp
                simp only [isMarked] at this
                rw [this]; exact hq

theorem checkRunF_stack_done (mem : Mem) (marked : Marked) :
    ∀ (fuel : Nat) (cm : List Bool) (st : List Nat) (cmF : List Bool),
      checkRunF mem marked fuel cm st = .finished cmF →
      ∀ q ∈ st, q = 0 ∨ cmF.getD q false = true := by
  intro fuel
  induction fuel with
  | zero =>
    intro cm st cmF h q hq
    simp only [checkRunF] at h
    by_cases he : st.isEmpty
    · simp only [List.isEmpty_eq_true] at he
      subst he; simp at hq
    · simp [he] at h
  | succ fuel ih =>
    intro cm st cmF h q hq
    match st with
    | [] => simp at hq
    | p :: rest =>
      simp only [checkRunF] at h
      simp only [List.mem_cons] at hq
      by_cases hp0 : p = 0
      · simp only [hp0, if_true] at h
        rcases hq with hq | hq
        · exact Or.inl (hq.trans hp0)
        · exact ih cm rest cmF h q hq
      · simp only [hp0, if_false] at h
        by_cases hm : isMarked marked p = false
        · simp [hm] at h
        · simp only [hm, if_false, Bool.false_eq_true] at h
          by_cases hcmp : cm.getD p false = true
          · simp only [hcmp, if_true] at h
            rcases hq with hq | hq
            · subst hq
              exact Or.inr (checkRunF_cm_mono mem marked fuel cm rest cmF h q hcmp)
            · exact ih cm rest cmF h q hq
          · simp only [hcmp, if_false, Bool.false_eq_true] at h
            by_cases hlen : cm.length ≤ p
            · simp [hlen] at h
            · simp only [hlen, if_false] at h
              rcases hq with hq | hq
              · subst hq
                refine Or.inr (checkRunF_cm_mono mem marked fuel _ _ cmF h q ?_)
                have : isMarked (cm.set q true) q = true :=
                  isMarked_set_self (by omega)
                simpa [isMarked] using this
              · exact ih _ _ cmF h q (by simp [hq])

/-- Every slot the finished DFS has visited is marked, and its fields are
nil or visited as well. -/
theorem checkRunF_closed (mem : Mem) (marked : Marked) :
    ∀ (fuel : Nat) (cm : List Bool) (st : List Nat) (cmF : List Bool),
      checkRunF mem marked fuel cm st = .finished cmF →
      ∀ q, cmF.getD q false = true →
        cm.getD q false = true ∨
          (isMarked marked q = true ∧
            ((getObj mem q).l = 0 ∨ cmF.getD (getObj mem q).l false = true) ∧
            ((getObj mem q).r = 0 ∨ cmF.getD (getObj mem q).r false = true)) := by
  intro fuel
  induction fuel with
  | zero =>
    intro cm st cmF h q hq
    simp only [checkRunF] at h
    by_cases he : st.isEmpty
    · simp only [he, if_true, ChkRes.finished.injEq] at h
      rw [← h] at hq; exact Or.inl hq
    · simp [he] at h
  | succ fuel ih =>
    intro cm st cmF h q hq
    match st with
    | [] =>
      simp only [checkRunF, ChkRes.finished.injEq] at h
      rw [← h] at hq; exact Or.inl hq
    | p :: rest =>
      simp only [checkRunF] at h
      by_cases hp0 : p = 0
      · simp only [hp0, if_true] at h; exact ih cm rest cmF h q hq
      · simp only [hp0, if_false] at h
        by_cases hm : isMarked marked p = false
        · simp [hm] at h
        · simp only [hm, if_false, Bool.false_eq_true] at h
          by_cases hcmp : cm.getD p false = true
          · simp only [hcmp, if_true] at h; exact ih cm rest cmF h q hq
          · simp only [hcmp, if_false, Bool.false_eq_true] at h
            by_cases hlen : cm.length ≤ p
            · simp [hlen] at h
            · simp only [hlen, if_false] at h
              rcases ih _ _ cmF h q hq with hold | hnew
              · by_cases hqp : q = p
                · subst hqp
                  refine Or.inr ⟨by simpa using hm, ?_, ?_⟩
                  · rcases checkRunF_stack_done mem marked fuel _ _ cmF h
                      (getObj mem q).l (by simp) with hz | hz
                    · exact Or.inl hz
                    · exact Or.inr hz
                  · rcases checkRunF_stack_done mem marked fuel _ _ cmF h
                      (getObj mem q).r (by simp) with hz | hz
                    · exact Or.inl hz
                    · exact Or.inr hz
                · have : isMarked (cm.set p true) q = isMarked cm q :=
                    isMarked_set_ne hqp
                  simp only [isMarked] at this
                  rw [this] at hold
                  exact Or.inl hold
              · exact Or.inr hnew

theorem getD_replicate_false (n q : Nat) :
    (List.replicate n false).getD q false = false := by
  induction n generalizing q with
  | zero => simp
  | succ m ih =>
    cases q with
    | zero => simp [List.replicate]
    | succ q' =>
      simp only [List.replicate, List.getD_cons_succ]
      exact ih q'

/-- `checkmark` returns normally exactly when everything reachable from
its root is marked (for consistent slot-array lengths). -/
theorem checkmark_none_iff (mem : Mem) (marked : Marked) (p : Nat)
    (hml : marked.length ≤ mem.length) :
    checkmark mem marked p = none ↔
      ∀ q, Reaches mem p q → isMarked marked q = true := by
  unfold checkmark
  have hadq : checkRunF mem marked (2 * mem.length + 2)
      (List.replicate mem.length false) [p] ≠ .fuelOut := by
    apply checkRunF_adequate
    simp [List.count_replicate]
    omega
  constructor
  · intro hnone q hq
    rcases hres : checkRunF mem marked (2 * mem.length + 2)
        (List.replicate mem.length false) [p] with _ | cmF | _
    · rw [hres] at hnone; simp at hnone
    · -- every reachable slot is visited, and every visited slot is marked
      have hvisit : ∀ s, Reaches mem p s → cmF.getD s false = true := by
        intro s hs
        induction hs with
        | refl hne =>
          rcases checkRunF_stack_done mem marked _ _ _ cmF hres p (by simp)
            with h0 | h0
          · exact absurd h0 hne
          · exact h0
        | viaL _ _ hne ih =>
          rcases checkRunF_closed mem marked _ _ _ cmF hres _ ih with hold | hnew
          · rw [getD_replicate_false] at hold; cases hold
          · rcases hnew.2.1 with hz | hz
            · exact absurd hz hne
            · exact hz
        | viaR _ _ hne ih =>
          rcases checkRunF_closed mem marked _ _ _ cmF hres _ ih with hold | hnew
          · rw [getD_replicate_false] at hold; cases hold
          · rcases hnew.2.2 with hz | hz
            · exact absurd hz hne
            · exact hz
      rcases checkRunF_closed mem marked _ _ _ cmF hres q (hvisit q hq)
        with hold | hnew
      · rw [getD_replicate_false] at hold; cases hold
      · exact hnew.1
    · exact absurd hres hadq
  · intro hall
    rcases hres : checkRunF mem marked (2 * mem.length + 2)
        (List.replicate mem.length false) [p] with k | cmF | _
    · exfalso
      have := checkRunF_fault_sound mem marked p hml _ _ _ k
        (by simp) ?_ hres
      · rw [hall k this.1] at this
        exact absurd this.2 (by simp)
      · intro q hq
        simp only [List.mem_cons, List.not_mem_nil, or_false] at hq
        subst hq
        by_cases hz : q = 0
        · exact Or.inl hz
        · exact Or.inr (Reaches.refl q hz)
    · simp
    · exact absurd hres hadq

/-- A `checkmark` fault names a reachable unmarked slot. -/
theorem checkmark_fault_reachable (mem : Mem) (marked : Marked) (p k : Nat)
    (hml : marked.length ≤ mem.length)
    (h : checkmark mem marked p = some k) :
    Reaches mem p k ∧ isMarked marked k = false := by
  unfold checkmark at h
  rcases hres : checkRunF mem marked (2 * mem.length + 2)
      (List.replicate mem.length false) [p] with k' | cmF | _
  · rw [hres] at h
    simp only [Option.some.injEq] at h
    subst h
    refine checkRunF_fault_sound mem marked p hml _ _ _ k' (by simp) ?_ hres
    intro q hq
    simp only [List.mem_cons, List.not_mem_nil, or_false] at hq
    subst hq
    by_cases hz : q = 0
    · exact Or.inl hz
    · exact Or.inr (Reaches.refl q hz)
  · rw [hres] at h; simp at h
  · rw [hres] at h; simp at h

/-- If the mark set is closed under fields and covers the root, the
checker passes. -/
theorem checkmark_none_of_closed (mem : Mem) (marked : Marked) (p : Nat)
    (hml : marked.length ≤ mem.length)
    (hroot : p = 0 ∨ isMarked marked p = true)
    (hclosed : ∀ q, isMarked marked q = true →
      ((getObj mem q).l = 0 ∨ isMarked marked (getObj mem q).l = true) ∧
      ((getObj mem q).r = 0 ∨ isMarked marked (getObj mem q).r = true)) :
    checkmark mem marked p = none := by
  rw [checkmark_none_iff mem marked p hml]
  intro q hq
  induction hq with
  | refl hne =>
    rcases hroot with h0 | h0
    · exact absurd h0 hne
    · exact h0
  | viaL _ _ hne ih =>
    rcases (hclosed _ ih).1 with hz | hz
    · exact absurd hz hne
    · exact hz
  | viaR _ _ hne ih =>
    rcases (hclosed _ ih).2 with hz | hz
    · exact absurd hz hne
    · exact hz

/-! ## The trial invariant -/

/-- Pending mark targets of the collector's in-progress stack mark. -/
def mainTargets : MainPC → List Nat
  | .rescanning (some il) => targetsOf il
  | _ => []

/-- Pending mark targets of a mutator's in-progress barrier mark. -/
def mutTargets : MutPC → List Nat
  | .barrierMark _ il => targetsOf il
  | _ => []

/-- All gray objects: pending targets of every in-progress mark. -/
def grayTargets (c : Config) : List Nat :=
  mainTargets c.mainPC ++ mutTargets c.mut0 ++ mutTargets c.mut1

/-- A pointer that cannot name a missed object: nil, marked, or pending
in some in-progress mark (which will mark it before finishing). -/
def Covered (c : Config) (q : Nat) : Prop :=
  q = 0 ∨ isMarked c.marked q = true ∨ q ∈ grayTargets c

def isBarrier : MutPC → Bool
  | .barrierMark _ _ => true
  | _ => false

/-- Number of mutators currently holding the shared lock. -/
def countBarrier (c : Config) : Nat :=
  (if isBarrier c.mut0 then 1 else 0) + (if isBarrier c.mut1 then 1 else 0)

/-- The inductive invariant of a trial under the transitive-mark
write-barrier policy. -/
structure Inv (c : Config) : Prop where
  memLenEq : c.mem.length = memLen
  markedLenEq : c.marked.length = memLen
  nilObj : getObj c.mem 0 = ⟨0, 0⟩
  fieldsL : ∀ i, i < memLen → PtrOK (getObj c.mem i).l
  fieldsR : ∀ i, i < memLen → PtrOK (getObj c.mem i).r
  lowUnmarked : ∀ s, s < globalRoot → isMarked c.marked s = false
  rootMarked : isMarked c.marked globalRoot = true
  rootL : (getObj c.mem globalRoot).l = 0 ∨
    isMarked c.marked (getObj c.mem globalRoot).l = true
  rootR : (getObj c.mem globalRoot).r = 0 ∨
    isMarked c.marked (getObj c.mem globalRoot).r = true
  blackFields : ∀ p, globalRoot ≤ p → p < memLen →
    isMarked c.marked p = true →
    Covered c (getObj c.mem p).l ∧ Covered c (getObj c.mem p).r
  graysOK : ∀ q ∈ grayTargets c, PtrOK q
  readersEq : c.readers = countBarrier c
  barrierVal : ∀ i, i < numThreads → ∀ obj il,
    getMut c i = .barrierMark obj il →
    ((getObj c.mem (stackBase + i)).l = 0 ∨
      isMarked c.marked (getObj c.mem (stackBase + i)).l = true ∨
      (getObj c.mem (stackBase + i)).l ∈ targetsOf il) ∧
    globalRoot ≤ obj ∧ obj < memLen
  stacksAfterScan : ∀ i, i < numThreads → i + 1 ≤ c.scanClock →
    Covered c (getObj c.mem (stackBase + i)).l
  lockPhase : ∀ f, c.mainPC = .lockWait ∨ c.mainPC = .finished f →
    numThreads ≤ c.scanClock
  finishedOK : ∀ f, c.mainPC = .finished f → f = none

/-- Reachability from the heap region stays in the heap region. -/
theorem reaches_heap_range {mem : Mem}
    (hL : ∀ i, i < memLen → PtrOK (getObj mem i).l)
    (hR : ∀ i, i < memLen → PtrOK (getObj mem i).r)
    {p q : Nat} (hp : globalRoot ≤ p ∧ p < memLen)
    (h : Reaches mem p q) : globalRoot ≤ q ∧ q < memLen := by
  induction h with
  | refl _ => exact hp
  | viaL q' _ hne ih =>
    rcases hL q' ih.2 with hz | hz
    · exact absurd hz hne
    · exact hz
  | viaR q' _ hne ih =>
    rcases hR q' ih.2 with hz | hz
    · exact absurd hz hne
    · exact hz

theorem reachableFromRoot_length (mem : Mem) :
    (reachableFromRoot mem).length = mem.length := by
  unfold reachableFromRoot markFull
  rw [markRunF_length]
  simp

/-- Everything the initial root mark marks is reachable from the root. -/
theorem reachableFromRoot_sound (mem : Mem) {q : Nat}
    (h : isMarked (reachableFromRoot mem) q = true) :
    Reaches mem globalRoot q := by
  unfold reachableFromRoot markFull at h
  rcases markRunF_sound mem _ _ _ q h with h0 | ⟨t, ht, hne, hr⟩
  · rw [isMarked, getD_replicate_false] at h0; cases h0
  · simp only [targetsOf, List.mem_cons, List.not_mem_nil, or_false] at ht
    subst ht
    exact hr

theorem reachableFromRoot_root (mem : Mem) (hlen : mem.length = memLen) :
    isMarked (reachableFromRoot mem) globalRoot = true := by
  unfold reachableFromRoot markFull
  have hok := markFull_complete_run mem
    (List.replicate mem.length false) [.call globalRoot]
  have := markRunF_targets mem _ _ _ hok globalRoot (by simp [targetsOf])
  unfold fieldDone at this
  rcases this with h | h | h | h
  · simp [globalRoot] at h
  · rw [hlen] at h; simp [globalRoot, memLen] at h
  · rw [markRunF_length, List.length_replicate, hlen] at h
    simp [globalRoot, memLen] at h
  · exact h

/-- The initial mark set (a complete mark from the global root on a fresh
set) is closed under fields of a well-formed graph. -/
theorem reachableFromRoot_closed (mem : Mem) (hlen : mem.length = memLen)
    (hL : ∀ i, i < memLen → PtrOK (getObj mem i).l)
    (hR : ∀ i, i < memLen → PtrOK (getObj mem i).r) :
    ∀ q, isMarked (reachableFromRoot mem) q = true →
      ((getObj mem q).l = 0 ∨
        isMarked (reachableFromRoot mem) (getObj mem q).l = true) ∧
      ((getObj mem q).r = 0 ∨
        isMarked (reachableFromRoot mem) (getObj mem q).r = true) := by
  intro q hq
  have hqrange : globalRoot ≤ q ∧ q < memLen :=
    reaches_heap_range hL hR (by simp [globalRoot, memLen])
      (reachableFromRoot_sound mem hq)
  have hok := markFull_complete_run mem
    (List.replicate mem.length false) [.call globalRoot]
  unfold reachableFromRoot markFull at hq ⊢
  rcases markRunF_closed mem _ _ _ hok q hq with h0 | ⟨hl, hr⟩
  · rw [isMarked, getD_replicate_false] at h0; cases h0
  · constructor
    · unfold fieldDone at hl
      rcases hL q hqrange.2 with hz | hz
      · exact Or.inl hz
      · rcases hl with h | h | h | h
        · exact Or.inl h
        · rw [hlen] at h; omega
        · rw [markRunF_length, List.length_replicate, hlen] at h; omega
        · exact Or.inr h
    · unfold fieldDone at hr
      rcases hR q hqrange.2 with hz | hz
      · exact Or.inl hz
      · rcases hr with h | h | h | h
        · exact Or.inl h
        · rw [hlen] at h; omega
        · rw [markRunF_length, List.length_replicate, hlen] at h; omega
        · exact Or.inr h

/-- The invariant holds right after graph construction and the initial
root mark. -/
theorem inv_init (mem : Mem) (hG : GraphOK mem) : Inv (initConfig mem) := by
  obtain ⟨hlen, hnil, hL, hR, _⟩ := hG
  have hgray : grayTargets (initConfig mem) = [] := rfl
  refine
    { memLenEq := hlen
      markedLenEq := by
        simpa [initConfig, reachableFromRoot_length] using hlen
      nilObj := hnil
      fieldsL := hL
      fieldsR := hR
      lowUnmarked := ?_
      rootMarked := reachableFromRoot_root mem hlen
      rootL := ((reachableFromRoot_closed mem hlen hL hR) globalRoot
        (reachableFromRoot_root mem hlen)).1
      rootR := ((reachableFromRoot_closed mem hlen hL hR) globalRoot
        (reachableFromRoot_root mem hlen)).2
      blackFields := ?_
      graysOK := by rw [hgray]; simp
      readersEq := rfl
      barrierVal := ?_
      stacksAfterScan := ?_
      lockPhase := ?_
      finishedOK := ?_ }
  · intro s hs
    by_contra hc
    simp only [Bool.not_eq_false] at hc
    have := reaches_heap_range hL hR
      (p := globalRoot) (by simp [globalRoot, memLen])
      (reachableFromRoot_sound mem hc)
    simp only [initConfig] at hc
    omega
  · intro p hp1 hp2 hp3
    have := reachableFromRoot_closed mem hlen hL hR p hp3
    constructor
    · rcases this.1 with h | h
      · exact Or.inl h
      · exact Or.inr (Or.inl h)
    · rcases this.2 with h | h
      · exact Or.inl h
      · exact Or.inr (Or.inl h)
  · intro i hi obj il hmut
    exfalso
    match i, hmut with
    | 0, h => simp [initConfig, getMut] at h
    | n + 1, h => simp [initConfig, getMut] at h
  · intro i hi hsc
    simp [initConfig] at hsc
  · intro f hf
    rcases hf with hf | hf <;> simp [initConfig] at hf
  · intro f hf
    simp [initConfig] at hf

/-! ## Step lemmas for the invariant -/

theorem covered_transport {c c' : Config}
    (hmono : ∀ q, isMarked c.marked q = true → isMarked c'.marked q = true)
    (hgray : ∀ t ∈ grayTargets c,
      t = 0 ∨ isMarked c'.marked t = true ∨ t ∈ grayTargets c')
    {q : Nat} (h : Covered c q) : Covered c' q := by
  rcases h with h | h | h
  · exact Or.inl h
  · exact Or.inr (Or.inl (hmono q h))
  · rcases hgray q h with h' | h' | h'
    · exact Or.inl h'
    · exact Or.inr (Or.inl h')
    · exact Or.inr (Or.inr h')

/-- `markStep_target` with the out-of-range cases discharged. -/
theorem markStep_target_ok {mem : Mem} {marked : Marked} {il : List MInstr}
    (hmem : mem.length = memLen) (hmk : marked.length = memLen)
    {q : Nat} (hq : q ∈ targetsOf il) (hPtr : PtrOK q) :
    q = 0 ∨ isMarked (markStep mem marked il).1 q = true ∨
      q ∈ targetsOf (markStep mem marked il).2 := by
  rcases markStep_target mem marked il hq with h | h | h | h | h
  · exact Or.inl h
  · rcases hPtr with h' | h'
    · exact Or.inl h'
    · omega
  · rcases hPtr with h' | h'
    · exact Or.inl h'
    · omega
  · exact Or.inr (Or.inl h)
  · exact Or.inr (Or.inr h)

/-- A slot newly marked by one elementary mark transition is non-nil and
has both of its fields pending afterwards. -/
theorem markStep_new_fields (mem : Mem) (marked : Marked) (il : List MInstr)
    {q : Nat} (h : isMarked (markStep mem marked il).1 q = true)
    (hq : isMarked marked q = false) :
    q ≠ 0 ∧
      (getObj mem q).l ∈ targetsOf (markStep mem marked il).2 ∧
      (getObj mem q).r ∈ targetsOf (markStep mem marked il).2 := by
  unfold markStep at h ⊢
  match il with
  | [] => rw [h] at hq; cases hq
  | .yld :: rest => rw [h] at hq; cases hq
  | .call p :: rest =>
    by_cases hs : markSkip mem marked p = true
    · simp only [hs, if_true] at h
      rw [h] at hq; cases hq
    · simp only [hs, if_false, Bool.false_eq_true] at h ⊢
      by_cases hqp : q = p
      · subst hqp
        unfold markSkip at hs
        simp only [Bool.or_eq_true, decide_eq_true_eq, not_or,
          Bool.not_eq_true] at hs
        exact ⟨hs.1.1.1, by simp [markExpand, targetsOf],
          by simp [markExpand, targetsOf]⟩
      · rw [isMarked_set_ne hqp] at h
        rw [h] at hq; cases hq

theorem getObj_set_self {mem : Mem} {p : Nat} {o : Obj} (h : p < mem.length) :
    getObj (mem.set p o) p = o := by
  unfold getObj
  induction mem generalizing p with
  | nil => simp at h
  | cons a t ih =>
    cases p with
    | zero => simp
    | succ q =>
      simp only [List.set, List.getD_cons_succ]
      exact ih (by simpa using h)

theorem getObj_set_ne {mem : Mem} {p q : Nat} {o : Obj} (h : q ≠ p) :
    getObj (mem.set p o) q = getObj mem q := by
  unfold getObj
  induction mem generalizing p q with
  | nil => simp
  | cons a t ih =>
    cases p with
    | zero =>
      cases q with
      | zero => omega
      | succ q' => simp
    | succ p' =>
      cases q with
      | zero => simp
      | succ q' =>
        simp only [List.set, List.getD_cons_succ]
        exact ih (by omega)

theorem selectLoop_sound :
    ∀ (bs : List Bool) (x i p : Nat), selectLoop bs x i = some p →
      globalRoot + i ≤ p ∧ p < globalRoot + i + bs.length ∧
        bs.getD (p - (globalRoot + i)) false = true := by
  intro bs
  induction bs with
  | nil => intro x i p h; simp [selectLoop] at h
  | cons b rest ih =>
    intro x i p h
    simp only [selectLoop] at h
    by_cases hb : b = true
    · simp only [hb, if_true] at h
      by_cases hx : x = 0
      · simp only [hx, if_true, Option.some.injEq] at h
        subst h
        refine ⟨le_refl _, by simp, ?_⟩
        simp [hb]
      · simp only [hx, if_false] at h
        obtain ⟨h1, h2, h3⟩ := ih (x - 1) (i + 1) p h
        refine ⟨by omega, by simp; omega, ?_⟩
        have harith : p - (globalRoot + i) = (p - (globalRoot + (i + 1))) + 1 := by
          omega
        rw [harith]
        simpa using h3
    · simp only [Bool.not_eq_true] at hb
      simp only [hb, Bool.false_eq_true, if_false] at h
      obtain ⟨h1, h2, h3⟩ := ih x (i + 1) p h
      refine ⟨by omega, by simp; omega, ?_⟩
      have harith : p - (globalRoot + i) = (p - (globalRoot + (i + 1))) + 1 := by
        omega
      rw [harith]
      simpa using h3

theorem getD_drop (l : List Bool) (n j : Nat) :
    (l.drop n).getD j false = l.getD (n + j) false := by
  induction n generalizing l with
  | zero => simp
  | succ m ih =>
    match l with
    | [] => simp
    | a :: t =>
      simp only [List.drop_succ_cons]
      rw [ih t]
      have harith : m + 1 + j = (m + j) + 1 := by omega
      rw [harith, List.getD_cons_succ]

/-- A successful ambiguous selection yields a heap object reachable from
the global root. -/
theorem amb_reachable_sound {mem : Mem} (hlen : mem.length = memLen)
    {x obj : Nat} (h : ambReachableHeapPointer mem x = some obj) :
    globalRoot ≤ obj ∧ obj < memLen ∧ Reaches mem globalRoot obj := by
  unfold ambReachableHeapPointer at h
  obtain ⟨h1, h2, h3⟩ := selectLoop_sound _ x 0 obj h
  rw [List.length_drop, reachableFromRoot_length, hlen] at h2
  rw [getD_drop] at h3
  have hobj : isMarked (reachableFromRoot mem) obj = true := by
    unfold isMarked
    have : globalRoot + (obj - (globalRoot + 0)) = obj := by omega
    rw [this] at h3
    exact h3
  exact ⟨by omega, by simp [globalRoot, memLen] at h2 ⊢; omega,
    reachableFromRoot_sound mem hobj⟩

/-- In any invariant state, a slot reachable from the global root is
marked or a pending mark target — and in the latter case one of the two
non-root heap objects is already marked (the pigeonhole fact behind the
stack re-scan soundness on this six-slot memory). -/
theorem reachable_covered (c : Config) (hI : Inv c) :
    ∀ q, Reaches c.mem globalRoot q →
      globalRoot ≤ q ∧ q < memLen ∧
        (isMarked c.marked q = true ∨
          (q ∈ grayTargets c ∧
            (isMarked c.marked 4 = true ∨ isMarked c.marked 5 = true))) := by
  intro q hq
  induction hq with
  | refl hne =>
    exact ⟨le_refl _, by simp [globalRoot, memLen], Or.inl hI.rootMarked⟩
  | viaL q' _ hne ih =>
    obtain ⟨h3, h6, hcov⟩ := ih
    have hrange : PtrOK (getObj c.mem q').l := hI.fieldsL q' h6
    have htr : globalRoot ≤ (getObj c.mem q').l ∧ (getObj c.mem q').l < memLen := by
      rcases hrange with h | h
      · exact absurd h hne
      · exact h
    refine ⟨htr.1, htr.2, ?_⟩
    by_cases hmt : isMarked c.marked (getObj c.mem q').l = true
    · exact Or.inl hmt
    · by_cases hmq : isMarked c.marked q' = true
      · have hbf := (hI.blackFields q' h3 h6 hmq).1
        rcases hbf with hz | hz | hz
        · exact absurd hz hne
        · exact absurd hz hmt
        · refine Or.inr ⟨hz, ?_⟩
          have hq3 : q' ≠ globalRoot := by
            intro hcon
            subst hcon
            rcases hI.rootL with h' | h'
            · exact hne h'
            · exact hmt h'
          rcases Nat.lt_or_ge q' 5 with h5 | h5
          · have : q' = 4 := by
              simp [globalRoot] at h3 hq3; omega
            rw [this] at hmq
            exact Or.inl hmq
          · have : q' = 5 := by simp [memLen] at h6; omega
            rw [this] at hmq
            exact Or.inr hmq
      · rcases hcov with hcov | ⟨hg, hm45⟩
        · exact absurd hcov hmq
        · have hq3 : q' ≠ globalRoot := by
            intro hcon; rw [hcon] at hmq; exact hmq hI.rootMarked
          have hq45 : q' = 4 ∨ q' = 5 := by
            simp [globalRoot] at h3 hq3; simp [memLen] at h6; omega
          have ht3 : (getObj c.mem q').l ≠ globalRoot := by
            intro hcon; rw [hcon] at hmt; exact hmt hI.rootMarked
          have ht45 : (getObj c.mem q').l = 4 ∨ (getObj c.mem q').l = 5 := by
            simp [globalRoot] at htr ht3
            simp [memLen] at htr
            omega
          rcases hm45 with hm4 | hm4
          · have hq5 : q' = 5 := by
              rcases hq45 with h' | h'
              · rw [h'] at hmq; exact absurd hm4 hmq
              · exact h'
            have ht5 : (getObj c.mem q').l = 5 := by
              rcases ht45 with h' | h'
              · rw [h'] at hmt; exact absurd hm4 hmt
              · exact h'
            rw [ht5]
            rw [hq5] at hg
            exact Or.inr ⟨hg, Or.inl hm4⟩
          · have hq4 : q' = 4 := by
              rcases hq45 with h' | h'
              · exact h'
              · rw [h'] at hmq; exact absurd hm4 hmq
            have ht4 : (getObj c.mem q').l = 4 := by
              rcases ht45 with h' | h'
              · exact h'
              · rw [h'] at hmt; exact absurd hm4 hmt
            rw [ht4]
            rw [hq4] at hg
            exact Or.inr ⟨hg, Or.inr hm4⟩
  | viaR q' _ hne ih =>
    obtain ⟨h3, h6, hcov⟩ := ih
    have hrange : PtrOK (getObj c.mem q').r := hI.fieldsR q' h6
    have htr : globalRoot ≤ (getObj c.mem q').r ∧ (getObj c.mem q').r < memLen := by
      rcases hrange with h | h
      · exact absurd h hne
      · exact h
    refine ⟨htr.1, htr.2, ?_⟩
    by_cases hmt : isMarked c.marked (getObj c.mem q').r = true
    · exact Or.inl hmt
    · by_cases hmq : isMarked c.marked q' = true
      · have hbf := (hI.blackFields q' h3 h6 hmq).2
        rcases hbf with hz | hz | hz
        · exact absurd hz hne
        · exact absurd hz hmt
        · refine Or.inr ⟨hz, ?_⟩
          have hq3 : q' ≠ globalRoot := by
            intro hcon
            subst hcon
            rcases hI.rootR with h' | h'
            · exact hne h'
            · exact hmt h'
          rcases Nat.lt_or_ge q' 5 with h5 | h5
          · have : q' = 4 := by
              simp [globalRoot] at h3 hq3; omega
            rw [this] at hmq
            exact Or.inl hmq
          · have : q' = 5 := by simp [memLen] at h6; omega
            rw [this] at hmq
            exact Or.inr hmq
      · rcases hcov with hcov | ⟨hg, hm45⟩
        · exact absurd hcov hmq
        · have hq3 : q' ≠ globalRoot := by
            intro hcon; rw [hcon] at hmq; exact hmq hI.rootMarked
          have hq45 : q' = 4 ∨ q' = 5 := by
            simp [globalRoot] at h3 hq3; simp [memLen] at h6; omega
          have ht3 : (getObj c.mem q').r ≠ globalRoot := by
            intro hcon; rw [hcon] at hmt; exact hmt hI.rootMarked
          have ht45 : (getObj c.mem q').r = 4 ∨ (getObj c.mem q').r = 5 := by
            simp [globalRoot] at htr ht3
            simp [memLen] at htr
            omega
          rcases hm45 with hm4 | hm4
          · have hq5 : q' = 5 := by
              rcases hq45 with h' | h'
              · rw [h'] at hmq; exact absurd hm4 hmq
              · exact h'
            have ht5 : (getObj c.mem q').r = 5 := by
              rcases ht45 with h' | h'
              · rw [h'] at hmt; exact absurd hm4 hmt
              · exact h'
            rw [ht5]
            rw [hq5] at hg
            exact Or.inr ⟨hg, Or.inl hm4⟩
          · have hq4 : q' = 4 := by
              rcases hq45 with h' | h'
              · exact h'
              · rw [h'] at hmq; exact absurd hm4 hmq
            have ht4 : (getObj c.mem q').r = 4 := by
              rcases ht45 with h' | h'
              · exact h'
              · rw [h'] at hmt; exact absurd hm4 hmt
            rw [ht4]
            rw [hq4] at hg
            exact Or.inr ⟨hg, Or.inr hm4⟩

/-- When the gray set is empty and the invariant holds, the final check
reports no fault. -/
theorem checkAll_none (c : Config) (hI : Inv c)
    (hgray : grayTargets c = [])
    (hsc : numThreads ≤ c.scanClock) :
    checkAll c.mem c.marked = none := by
  have hml : c.marked.length ≤ c.mem.length := by
    rw [hI.memLenEq, hI.markedLenEq]
  have hclosed : ∀ q, isMarked c.marked q = true →
      ((getObj c.mem q).l = 0 ∨ isMarked c.marked (getObj c.mem q).l = true) ∧
      ((getObj c.mem q).r = 0 ∨ isMarked c.marked (getObj c.mem q).r = true) := by
    intro q hqm
    have hq3 : globalRoot ≤ q := by
      by_contra hc
      have := hI.lowUnmarked q (by omega)
      rw [hqm] at this
      exact absurd this (by simp)
    have hq6 : q < memLen := by
      have := isMarked_of_lt_length hqm
      rw [hI.markedLenEq] at this
      exact this
    obtain ⟨hbl, hbr⟩ := hI.blackFields q hq3 hq6 hqm
    constructor
    · rcases hbl with h | h | h
      · exact Or.inl h
      · exact Or.inr h
      · rw [hgray] at h; simp at h
    · rcases hbr with h | h | h
      · exact Or.inl h
      · exact Or.inr h
      · rw [hgray] at h; simp at h
  have hstack : ∀ i, i < numThreads →
      (getObj c.mem (stackBase + i)).l = 0 ∨
        isMarked c.marked (getObj c.mem (stackBase + i)).l = true := by
    intro i hi
    have := hI.stacksAfterScan i hi (by omega)
    rcases this with h | h | h
    · exact Or.inl h
    · exact Or.inr h
    · rw [hgray] at h; simp at h
  unfold checkAll
  rw [checkmark_none_of_closed c.mem c.marked globalRoot hml
    (Or.inr hI.rootMarked) hclosed]
  rw [checkmark_none_of_closed c.mem c.marked _ hml ?_ hclosed]
  · rw [checkmark_none_of_closed c.mem c.marked _ hml ?_ hclosed]
    have := hstack 1 (by simp [numThreads])
    simpa using this
  · have := hstack 0 (by simp [numThreads])
    simpa using this

/-! ## Invariant preservation: collector steps -/

theorem inv_step_iter (c : Config) (hI : Inv c)
    (hpc : c.mainPC = .rescanning none) (hsc : c.scanClock < numThreads) :
    Inv { c with
      scanClock := c.scanClock + 1
      mainPC := .rescanning
        (some [.call (getObj c.mem (stackBase + c.scanClock)).l]) } := by
  set v := (getObj c.mem (stackBase + c.scanClock)).l with hv
  set c' : Config := { c with
    scanClock := c.scanClock + 1
    mainPC := .rescanning (some [.call v]) } with hc'
  have hgrays : grayTargets c' = v :: (mutTargets c.mut0 ++ mutTargets c.mut1) := by
    simp [hc', grayTargets, mainTargets, mutTargets, targetsOf]
  have hgraysold : grayTargets c = mutTargets c.mut0 ++ mutTargets c.mut1 := by
    simp [grayTargets, mainTargets, hpc]
  have hvPtr : PtrOK v := by
    apply hI.fieldsL
    simp [stackBase, numThreads, memLen] at hsc ⊢
    omega
  have htrans : ∀ t ∈ grayTargets c,
      t = 0 ∨ isMarked c'.marked t = true ∨ t ∈ grayTargets c' := by
    intro t ht
    rw [hgraysold] at ht
    refine Or.inr (Or.inr ?_)
    rw [hgrays]
    simp [ht]
  have hcov : ∀ q, Covered c q → Covered c' q :=
    fun q h => @covered_transport c c' (fun _ hq => hq) htrans q h
  refine
    { memLenEq := hI.memLenEq
      markedLenEq := hI.markedLenEq
      nilObj := hI.nilObj
      fieldsL := hI.fieldsL
      fieldsR := hI.fieldsR
      lowUnmarked := hI.lowUnmarked
      rootMarked := hI.rootMarked
      rootL := hI.rootL
      rootR := hI.rootR
      blackFields := ?_
      graysOK := ?_
      readersEq := hI.readersEq
      barrierVal := hI.barrierVal
      stacksAfterScan := ?_
      lockPhase := ?_
      finishedOK := ?_ }
  · intro p h1 h2 h3
    obtain ⟨hbl, hbr⟩ := hI.blackFields p h1 h2 h3
    exact ⟨hcov _ hbl, hcov _ hbr⟩
  · intro q hq
    rw [hgrays] at hq
    simp only [List.mem_cons, List.mem_append] at hq
    rcases hq with hq | hq | hq
    · rw [hq]; exact hvPtr
    · exact hI.graysOK q (by rw [hgraysold]; simp [hq])
    · exact hI.graysOK q (by rw [hgraysold]; simp [hq])
  · intro i hi hisc
    simp only [hc'] at hisc
    by_cases hle : i + 1 ≤ c.scanClock
    · exact hcov _ (hI.stacksAfterScan i hi hle)
    · have : i = c.scanClock := by omega
      subst this
      refine Or.inr (Or.inr ?_)
      rw [hgrays]
      simp
  · intro f hf
    rcases hf with hf | hf <;> simp [hc'] at hf
  · intro f hf
    simp [hc'] at hf

theorem inv_step_exit (c : Config) (hI : Inv c)
    (hpc : c.mainPC = .rescanning none) (hsc : numThreads ≤ c.scanClock) :
    Inv { c with mainPC := .lockWait } := by
  have hgrays : grayTargets { c with mainPC := .lockWait } = grayTargets c := by
    simp [grayTargets, mainTargets, mutTargets, hpc]
  have hcov : ∀ q, Covered c q →
      Covered { c with mainPC := .lockWait } q := by
    intro q h
    rcases h with h | h | h
    · exact Or.inl h
    · exact Or.inr (Or.inl h)
    · exact Or.inr (Or.inr (by rw [hgrays]; exact h))
  refine
    { memLenEq := hI.memLenEq
      markedLenEq := hI.markedLenEq
      nilObj := hI.nilObj
      fieldsL := hI.fieldsL
      fieldsR := hI.fieldsR
      lowUnmarked := hI.lowUnmarked
      rootMarked := hI.rootMarked
      rootL := hI.rootL
      rootR := hI.rootR
      blackFields := ?_
      graysOK := by rw [hgrays]; exact hI.graysOK
      readersEq := hI.readersEq
      barrierVal := hI.barrierVal
      stacksAfterScan := ?_
      lockPhase := ?_
      finishedOK := ?_ }
  · intro p h1 h2 h3
    obtain ⟨hbl, hbr⟩ := hI.blackFields p h1 h2 h3
    exact ⟨hcov _ hbl, hcov _ hbr⟩
  · intro i hi hisc
    exact hcov _ (hI.stacksAfterScan i hi hisc)
  · intro f _
    exact hsc
  · intro f hf
    simp at hf

theorem inv_step_mfin (c : Config) (hI : Inv c)
    (hpc : c.mainPC = .rescanning (some [])) :
    Inv { c with mainPC := .rescanning none } := by
  have hgrays : grayTargets { c with mainPC := .rescanning none } =
      grayTargets c := by
    simp [grayTargets, mainTargets, mutTargets, hpc, targetsOf]
  have hcov : ∀ q, Covered c q →
      Covered { c with mainPC := .rescanning none } q := by
    intro q h
    rcases h with h | h | h
    · exact Or.inl h
    · exact Or.inr (Or.inl h)
    · exact Or.inr (Or.inr (by rw [hgrays]; exact h))
  refine
    { memLenEq := hI.memLenEq
      markedLenEq := hI.markedLenEq
      nilObj := hI.nilObj
      fieldsL := hI.fieldsL
      fieldsR := hI.fieldsR
      lowUnmarked := hI.lowUnmarked
      rootMarked := hI.rootMarked
      rootL := hI.rootL
      rootR := hI.rootR
      blackFields := ?_
      graysOK := by rw [hgrays]; exact hI.graysOK
      readersEq := hI.readersEq
      barrierVal := hI.barrierVal
      stacksAfterScan := ?_
      lockPhase := ?_
      finishedOK := ?_ }
  · intro p h1 h2 h3
    obtain ⟨hbl, hbr⟩ := hI.blackFields p h1 h2 h3
    exact ⟨hcov _ hbl, hcov _ hbr⟩
  · intro i hi hisc
    exact hcov _ (hI.stacksAfterScan i hi hisc)
  · intro f hf
    rcases hf with hf | hf <;> simp at hf
  · intro f hf
    simp at hf

theorem inv_step_check (c : Config) (hI : Inv c)
    (hpc : c.mainPC = .lockWait) (hrd : c.readers = 0) :
    Inv { c with mainPC := .finished (checkAll c.mem c.marked) } := by
  have hnb0 : isBarrier c.mut0 = false ∧ isBarrier c.mut1 = false := by
    have := hI.readersEq
    rw [hrd] at this
    unfold countBarrier at this
    constructor
    · by_cases h0 : isBarrier c.mut0
      · rw [h0] at this
        by_cases h1 : isBarrier c.mut1 <;> simp [h1] at this
      · simp [h0]
    · by_cases h1 : isBarrier c.mut1
      · rw [h1] at this
        by_cases h0 : isBarrier c.mut0 <;> simp [h0] at this
      · simp [h1]
  have hmt0 : mutTargets c.mut0 = [] := by
    cases h : c.mut0 with
    | barrierMark obj il =>
      exfalso
      have := hnb0.1
      rw [h] at this
      simp [isBarrier] at this
    | mstart => simp [mutTargets]
    | loadPtr => simp [mutTargets]
    | mdone => simp [mutTargets]
  have hmt1 : mutTargets c.mut1 = [] := by
    cases h : c.mut1 with
    | barrierMark obj il =>
      exfalso
      have := hnb0.2
      rw [h] at this
      simp [isBarrier] at this
    | mstart => simp [mutTargets]
    | loadPtr => simp [mutTargets]
    | mdone => simp [mutTargets]
  have hgraysold : grayTargets c = [] := by
    simp [grayTargets, mainTargets, hpc, hmt0, hmt1]
  have hsc : numThreads ≤ c.scanClock :=
    hI.lockPhase none (Or.inl hpc)
  have hgrays : grayTargets
      { c with mainPC := .finished (checkAll c.mem c.marked) } = [] := by
    simp [grayTargets, mainTargets, hmt0, hmt1]
  have hcov : ∀ q, Covered c q →
      Covered { c with mainPC := .finished (checkAll c.mem c.marked) } q := by
    intro q h
    rcases h with h | h | h
    · exact Or.inl h
    · exact Or.inr (Or.inl h)
    · rw [hgraysold] at h; simp at h
  refine
    { memLenEq := hI.memLenEq
      markedLenEq := hI.markedLenEq
      nilObj := hI.nilObj
      fieldsL := hI.fieldsL
      fieldsR := hI.fieldsR
      lowUnmarked := hI.lowUnmarked
      rootMarked := hI.rootMarked
      rootL := hI.rootL
      rootR := hI.rootR
      blackFields := ?_
      graysOK := by rw [hgrays]; simp
      readersEq := hI.readersEq
      barrierVal := hI.barrierVal
      stacksAfterScan := ?_
      lockPhase := ?_
      finishedOK := ?_ }
  · intro p h1 h2 h3
    obtain ⟨hbl, hbr⟩ := hI.blackFields p h1 h2 h3
    exact ⟨hcov _ hbl, hcov _ hbr⟩
  · intro i hi hisc
    exact hcov _ (hI.stacksAfterScan i hi hisc)
  · intro f _
    exact hsc
  · intro f hf
    simp only [MainPC.finished.injEq] at hf
    rw [← hf]
    exact checkAll_none c hI hgraysold hsc

theorem inv_step_mmark (c : Config) (hI : Inv c) (il : List MInstr)
    (hpc : c.mainPC = .rescanning (some il)) :
    Inv { c with
      marked := (markStep c.mem c.marked il).1
      mainPC := .rescanning (some (markStep c.mem c.marked il).2) } := by
  set mk' := (markStep c.mem c.marked il).1 with hmk'
  set il' := (markStep c.mem c.marked il).2 with hil'
  set c' : Config :=
    { c with marked := mk', mainPC := .rescanning (some il') } with hc'
  have hmono : ∀ q, isMarked c.marked q = true → isMarked mk' q = true :=
    fun q hq => markStep_mono c.mem c.marked il hq
  have hgraysold : grayTargets c =
      targetsOf il ++ (mutTargets c.mut0 ++ mutTargets c.mut1) := by
    simp [grayTargets, mainTargets, hpc]
  have hgrays : grayTargets c' =
      targetsOf il' ++ (mutTargets c.mut0 ++ mutTargets c.mut1) := by
    simp [hc', grayTargets, mainTargets]
  have htrans : ∀ t ∈ grayTargets c,
      t = 0 ∨ isMarked c'.marked t = true ∨ t ∈ grayTargets c' := by
    intro t ht
    have hPtr := hI.graysOK t ht
    rw [hgraysold] at ht
    simp only [List.mem_append] at ht
    rcases ht with ht | ht
    · rcases markStep_target_ok hI.memLenEq hI.markedLenEq ht hPtr with
        h | h | h
      · exact Or.inl h
      · exact Or.inr (Or.inl h)
      · refine Or.inr (Or.inr ?_)
        rw [hgrays]
        simp [h]
    · refine Or.inr (Or.inr ?_)
      rw [hgrays]
      simp [ht]
  have hcov : ∀ q, Covered c q → Covered c' q :=
    fun q h => @covered_transport c c' hmono htrans q h
  have hnewm : ∀ q, isMarked mk' q = true → isMarked c.marked q = false →
      q ≠ 0 ∧ q ∈ targetsOf il := by
    intro q h1 h2
    exact ⟨(markStep_new_fields c.mem c.marked il h1 h2).1,
      markStep_new_mark c.mem c.marked il h1 h2⟩
  refine
    { memLenEq := hI.memLenEq
      markedLenEq := by rw [hc', hmk']; simpa [markStep_length] using hI.markedLenEq
      nilObj := hI.nilObj
      fieldsL := hI.fieldsL
      fieldsR := hI.fieldsR
      lowUnmarked := ?_
      rootMarked := hmono _ hI.rootMarked
      rootL := ?_
      rootR := ?_
      blackFields := ?_
      graysOK := ?_
      readersEq := hI.readersEq
      barrierVal := ?_
      stacksAfterScan := ?_
      lockPhase := ?_
      finishedOK := ?_ }
  · intro s hs
    by_contra hcon
    simp only [Bool.not_eq_false] at hcon
    have hold : isMarked c.marked s = false := hI.lowUnmarked s hs
    obtain ⟨hs0, hsmem⟩ := hnewm s hcon hold
    have hPtr := hI.graysOK s (by rw [hgraysold]; simp [hsmem])
    rcases hPtr with h | h
    · exact hs0 h
    · simp [globalRoot] at h hs
      omega
  · rcases hI.rootL with h | h
    · exact Or.inl h
    · exact Or.inr (hmono _ h)
  · rcases hI.rootR with h | h
    · exact Or.inl h
    · exact Or.inr (hmono _ h)
  · intro p h1 h2 h3
    by_cases hold : isMarked c.marked p = true
    · obtain ⟨hbl, hbr⟩ := hI.blackFields p h1 h2 hold
      exact ⟨hcov _ hbl, hcov _ hbr⟩
    · simp only [Bool.not_eq_true] at hold
      obtain ⟨_, hfl, hfr⟩ := markStep_new_fields c.mem c.marked il h3 hold
      constructor
      · refine Or.inr (Or.inr ?_)
        rw [hgrays]; simp [hfl]
      · refine Or.inr (Or.inr ?_)
        rw [hgrays]; simp [hfr]
  · intro q hq
    rw [hgrays] at hq
    simp only [List.mem_append] at hq
    rcases hq with hq | hq
    · rcases markStep_new_targets c.mem c.marked il hq with h | ⟨p, hp, hf⟩
      · exact hI.graysOK q (by rw [hgraysold]; simp [h])
      · rcases hf with hf | hf
        · rw [hf]
          exact hI.fieldsL p (by rw [hI.memLenEq] at hp; exact hp)
        · rw [hf]
          exact hI.fieldsR p (by rw [hI.memLenEq] at hp; exact hp)
    · exact hI.graysOK q (by rw [hgraysold]; simp [hq])
  · intro i hi obj bil hmut
    have hmut' : getMut c i = .barrierMark obj bil := by
      match i, hmut with
      | 0, hmut => exact hmut
      | 1, hmut => exact hmut
      | n + 2, hmut => exact hmut
    obtain ⟨hval, hobj⟩ := hI.barrierVal i hi obj bil hmut'
    refine ⟨?_, hobj⟩
    rcases hval with h | h | h
    · exact Or.inl h
    · exact Or.inr (Or.inl (hmono _ h))
    · exact Or.inr (Or.inr h)
  · intro i hi hisc
    exact hcov _ (hI.stacksAfterScan i hi hisc)
  · intro f hf
    rcases hf with hf | hf <;> simp [hc'] at hf
  · intro f hf
    simp [hc'] at hf

/-! ## Invariant preservation: mutator steps -/

/-- Core of barrier entry: the stepping mutator `i` moves from `mstart`
to `barrierMark obj [.call v]` where `v` is its own stack value, and the
reader count rises by one. -/
theorem inv_enter_core (c c' : Config) (hI : Inv c) (i obj : Nat)
    (hi : i < numThreads)
    (hmem : c'.mem = c.mem) (hmk : c'.marked = c.marked)
    (hsc : c'.scanClock = c.scanClock) (hpc : c'.mainPC = c.mainPC)
    (hcount : countBarrier c' = countBarrier c + 1)
    (hrd : c'.readers = c.readers + 1)
    (hobj3 : globalRoot ≤ obj) (hobj6 : obj < memLen)
    (hsup : ∀ t ∈ grayTargets c, t ∈ grayTargets c')
    (hnew : ∀ t ∈ grayTargets c',
      t ∈ grayTargets c ∨ t = (getObj c.mem (stackBase + i)).l)
    (hvin : (getObj c.mem (stackBase + i)).l ∈ grayTargets c')
    (hmuts : ∀ j, j < numThreads → getMut c' j =
      if j = i then
        .barrierMark obj [.call (getObj c.mem (stackBase + i)).l]
      else getMut c j) :
    Inv c' := by
  set v := (getObj c.mem (stackBase + i)).l with hv
  have hvPtr : PtrOK v := by
    apply hI.fieldsL
    simp [stackBase, numThreads, memLen] at hi ⊢
    omega
  have hcov : ∀ q, Covered c q → Covered c' q := by
    intro q h
    rcases h with h | h | h
    · exact Or.inl h
    · exact Or.inr (Or.inl (by rw [hmk]; exact h))
    · exact Or.inr (Or.inr (hsup q h))
  refine
    { memLenEq := by rw [hmem]; exact hI.memLenEq
      markedLenEq := by rw [hmk]; exact hI.markedLenEq
      nilObj := by rw [hmem]; exact hI.nilObj
      fieldsL := by rw [hmem]; exact hI.fieldsL
      fieldsR := by rw [hmem]; exact hI.fieldsR
      lowUnmarked := by rw [hmk]; exact hI.lowUnmarked
      rootMarked := by rw [hmk]; exact hI.rootMarked
      rootL := by rw [hmem, hmk]; exact hI.rootL
      rootR := by rw [hmem, hmk]; exact hI.rootR
      blackFields := ?_
      graysOK := ?_
      readersEq := by rw [hrd, hcount, hI.readersEq]
      barrierVal := ?_
      stacksAfterScan := ?_
      lockPhase := ?_
      finishedOK := ?_ }
  · intro p h1 h2 h3
    rw [hmem]
    rw [hmk] at h3
    obtain ⟨hbl, hbr⟩ := hI.blackFields p h1 h2 h3
    exact ⟨hcov _ hbl, hcov _ hbr⟩
  · intro q hq
    rcases hnew q hq with h | h
    · exact hI.graysOK q h
    · rw [h]; exact hvPtr
  · intro j hj obj' il' hmut
    rw [hmuts j hj] at hmut
    by_cases hji : j = i
    · subst hji
      simp only [if_true] at hmut
      injection hmut with hobj' hil'
      subst hobj'
      subst hil'
      refine ⟨?_, hobj3, hobj6⟩
      rw [hmem]
      refine Or.inr (Or.inr ?_)
      simp [targetsOf]
    · simp only [hji, if_false] at hmut
      obtain ⟨hval, ho⟩ := hI.barrierVal j hj obj' il' hmut
      rw [hmem, hmk]
      exact ⟨hval, ho⟩
  · intro j hj hjsc
    rw [hsc] at hjsc
    rw [hmem]
    exact hcov _ (hI.stacksAfterScan j hj hjsc)
  · intro f hf
    rw [hpc] at hf
    rw [hsc]
    exact hI.lockPhase f hf
  · intro f hf
    rw [hpc] at hf
    exact hI.finishedOK f hf

theorem inv_step_enter (c : Config) (hI : Inv c) (i obj : Nat)
    (hi : i < numThreads) (hget : getMut c i = .mstart)
    (hobj3 : globalRoot ≤ obj) (hobj6 : obj < memLen) :
    Inv (setMut { c with readers := c.readers + 1 } i
      (.barrierMark obj [.call (getObj c.mem (stackBase + i)).l])) := by
  have hi01 : i = 0 ∨ i = 1 := by simp [numThreads] at hi; omega
  rcases hi01 with rfl | rfl
  · have h0 : c.mut0 = .mstart := hget
    refine inv_enter_core c _ hI 0 obj hi rfl rfl rfl rfl ?_ rfl hobj3 hobj6
      ?_ ?_ ?_ ?_
    · simp [countBarrier, setMut, isBarrier, h0]
      omega
    · intro t ht
      simp only [grayTargets, setMut, h0, mutTargets, targetsOf,
        List.mem_append, List.mem_cons, List.not_mem_nil, or_false]
        at ht ⊢
      tauto
    · intro t ht
      simp only [grayTargets, setMut, h0, mutTargets, targetsOf,
        List.mem_append, List.mem_cons, List.not_mem_nil, or_false]
        at ht ⊢
      tauto
    · simp [grayTargets, setMut, mutTargets, targetsOf]
    · intro j hj
      have hj01 : j = 0 ∨ j = 1 := by simp [numThreads] at hj; omega
      rcases hj01 with rfl | rfl
      · simp [getMut, setMut]
      · simp [getMut, setMut]
  · have h1 : c.mut1 = .mstart := hget
    refine inv_enter_core c _ hI 1 obj hi rfl rfl rfl rfl ?_ rfl hobj3 hobj6
      ?_ ?_ ?_ ?_
    · simp [countBarrier, setMut, isBarrier, h1]
    · intro t ht
      simp only [grayTargets, setMut, h1, mutTargets, targetsOf,
        List.mem_append, List.mem_cons, List.not_mem_nil, or_false]
        at ht ⊢
      tauto
    · intro t ht
      simp only [grayTargets, setMut, h1, mutTargets, targetsOf,
        List.mem_append, List.mem_cons, List.not_mem_nil, or_false]
        at ht ⊢
      tauto
    · simp [grayTargets, setMut, mutTargets, targetsOf]
    · intro j hj
      have hj01 : j = 0 ∨ j = 1 := by simp [numThreads] at hj; omega
      rcases hj01 with rfl | rfl
      · simp [getMut, setMut]
      · simp [getMut, setMut]

/-- Core of one elementary barrier-mark transition of mutator `i`. -/
theorem inv_bmark_core (c c' : Config) (hI : Inv c) (i obj : Nat)
    (il : List MInstr) (hi : i < numThreads)
    (hget : getMut c i = .barrierMark obj il)
    (hmem : c'.mem = c.mem)
    (hmk : c'.marked = (markStep c.mem c.marked il).1)
    (hsc : c'.scanClock = c.scanClock) (hpc : c'.mainPC = c.mainPC)
    (hrd : c'.readers = c.readers)
    (hcount : countBarrier c' = countBarrier c)
    (hsup : ∀ t ∈ grayTargets c, t ∈ targetsOf il ∨ t ∈ grayTargets c')
    (hnew : ∀ t ∈ grayTargets c',
      t ∈ targetsOf (markStep c.mem c.marked il).2 ∨ t ∈ grayTargets c)
    (hilold : ∀ t ∈ targetsOf il, t ∈ grayTargets c)
    (hilnew : ∀ t ∈ targetsOf (markStep c.mem c.marked il).2,
      t ∈ grayTargets c')
    (hmuts : ∀ j, j < numThreads → getMut c' j =
      if j = i then .barrierMark obj (markStep c.mem c.marked il).2
      else getMut c j) :
    Inv c' := by
  have hmono : ∀ q, isMarked c.marked q = true →
      isMarked c'.marked q = true := by
    intro q hq
    rw [hmk]
    exact markStep_mono c.mem c.marked il hq
  have htargold : ∀ t ∈ targetsOf il,
      t = 0 ∨ isMarked c'.marked t = true ∨
        t ∈ targetsOf (markStep c.mem c.marked il).2 := by
    intro t ht
    rw [hmk]
    exact markStep_target_ok hI.memLenEq hI.markedLenEq ht
      (hI.graysOK t (hilold t ht))
  have htrans : ∀ t ∈ grayTargets c,
      t = 0 ∨ isMarked c'.marked t = true ∨ t ∈ grayTargets c' := by
    intro t ht
    rcases hsup t ht with h | h
    · rcases htargold t h with h' | h' | h'
      · exact Or.inl h'
      · exact Or.inr (Or.inl h')
      · exact Or.inr (Or.inr (hilnew t h'))
    · exact Or.inr (Or.inr h)
  have hcov : ∀ q, Covered c q → Covered c' q :=
    fun q h => @covered_transport c c' hmono htrans q h
  refine
    { memLenEq := by rw [hmem]; exact hI.memLenEq
      markedLenEq := by
        rw [hmk, markStep_length]
        exact hI.markedLenEq
      nilObj := by rw [hmem]; exact hI.nilObj
      fieldsL := by rw [hmem]; exact hI.fieldsL
      fieldsR := by rw [hmem]; exact hI.fieldsR
      lowUnmarked := ?_
      rootMarked := hmono _ hI.rootMarked
      rootL := ?_
      rootR := ?_
      blackFields := ?_
      graysOK := ?_
      readersEq := by rw [hrd, hcount, hI.readersEq]
      barrierVal := ?_
      stacksAfterScan := ?_
      lockPhase := ?_
      finishedOK := ?_ }
  · intro s hs
    by_contra hcon
    simp only [Bool.not_eq_false] at hcon
    rw [hmk] at hcon
    have hold : isMarked c.marked s = false := hI.lowUnmarked s hs
    have hs0 : s ≠ 0 :=
      (markStep_new_fields c.mem c.marked il hcon hold).1
    have hsmem := markStep_new_mark c.mem c.marked il hcon hold
    have hPtr := hI.graysOK s (hilold s hsmem)
    rcases hPtr with h | h
    · exact hs0 h
    · simp [globalRoot] at h hs
      omega
  · rw [hmem]
    rcases hI.rootL with h | h
    · exact Or.inl h
    · exact Or.inr (hmono _ h)
  · rw [hmem]
    rcases hI.rootR with h | h
    · exact Or.inl h
    · exact Or.inr (hmono _ h)
  · intro p h1 h2 h3
    rw [hmem]
    by_cases hold : isMarked c.marked p = true
    · obtain ⟨hbl, hbr⟩ := hI.blackFields p h1 h2 hold
      exact ⟨hcov _ hbl, hcov _ hbr⟩
    · simp only [Bool.not_eq_true] at hold
      rw [hmk] at h3
      obtain ⟨_, hfl, hfr⟩ := markStep_new_fields c.mem c.marked il h3 hold
      exact ⟨Or.inr (Or.inr (hilnew _ hfl)), Or.inr (Or.inr (hilnew _ hfr))⟩
  · intro q hq
    rcases hnew q hq with h | h
    · rcases markStep_new_targets c.mem c.marked il h with h' | ⟨p, hp, hf⟩
      · exact hI.graysOK q (hilold q h')
      · rcases hf with hf | hf
        · rw [hf]
          exact hI.fieldsL p (by rw [hI.memLenEq] at hp; exact hp)
        · rw [hf]
          exact hI.fieldsR p (by rw [hI.memLenEq] at hp; exact hp)
    · exact hI.graysOK q h
  · intro j hj obj' il' hmut
    rw [hmuts j hj] at hmut
    by_cases hji : j = i
    · subst hji
      simp only [if_true] at hmut
      injection hmut with hobj' hil'
      subst hobj'
      subst hil'
      obtain ⟨hval, hobj⟩ := hI.barrierVal j hj obj il hget
      refine ⟨?_, hobj⟩
      rw [hmem]
      rcases hval with h | h | h
      · exact Or.inl h
      · exact Or.inr (Or.inl (hmono _ h))
      · rcases htargold _ h with h' | h' | h'
        · exact Or.inl h'
        · exact Or.inr (Or.inl h')
        · exact Or.inr (Or.inr h')
    · simp only [hji, if_false] at hmut
      obtain ⟨hval, ho⟩ := hI.barrierVal j hj obj' il' hmut
      rw [hmem]
      refine ⟨?_, ho⟩
      rcases hval with h | h | h
      · exact Or.inl h
      · exact Or.inr (Or.inl (hmono _ h))
      · exact Or.inr (Or.inr h)
  · intro j hj hjsc
    rw [hsc] at hjsc
    rw [hmem]
    exact hcov _ (hI.stacksAfterScan j hj hjsc)
  · intro f hf
    rw [hpc] at hf
    rw [hsc]
    exact hI.lockPhase f hf
  · intro f hf
    rw [hpc] at hf
    exact hI.finishedOK f hf

theorem inv_step_bmark (c : Config) (hI : Inv c) (i obj : Nat)
    (il : List MInstr) (hi : i < numThreads)
    (hget : getMut c i = .barrierMark obj il) :
    Inv (setMut { c with marked := (markStep c.mem c.marked il).1 } i
      (.barrierMark obj (markStep c.mem c.marked il).2)) := by
  have hi01 : i = 0 ∨ i = 1 := by simp [numThreads] at hi; omega
  rcases hi01 with rfl | rfl
  · have h0 : c.mut0 = .barrierMark obj il := hget
    refine inv_bmark_core c _ hI 0 obj il hi hget rfl rfl rfl rfl rfl ?_
      ?_ ?_ ?_ ?_ ?_
    · simp [countBarrier, setMut, isBarrier, h0]
    · intro t ht
      simp only [grayTargets, setMut, h0, mutTargets, List.mem_append]
        at ht ⊢
      tauto
    · intro t ht
      simp only [grayTargets, setMut, h0, mutTargets, List.mem_append]
        at ht ⊢
      tauto
    · intro t ht
      simp only [grayTargets, h0, mutTargets, List.mem_append]
      tauto
    · intro t ht
      simp only [grayTargets, setMut, mutTargets, List.mem_append]
      tauto
    · intro j hj
      have hj01 : j = 0 ∨ j = 1 := by simp [numThreads] at hj; omega
      rcases hj01 with rfl | rfl
      · simp [getMut, setMut]
      · simp [getMut, setMut]
  · have h1 : c.mut1 = .barrierMark obj il := hget
    refine inv_bmark_core c _ hI 1 obj il hi hget rfl rfl rfl rfl rfl ?_
      ?_ ?_ ?_ ?_ ?_
    · simp [countBarrier, setMut, isBarrier, h1]
    · intro t ht
      simp only [grayTargets, setMut, h1, mutTargets, List.mem_append]
        at ht ⊢
      tauto
    · intro t ht
      simp only [grayTargets, setMut, h1, mutTargets, List.mem_append]
        at ht ⊢
      tauto
    · intro t ht
      simp only [grayTargets, h1, mutTargets, List.mem_append]
      tauto
    · intro t ht
      simp only [grayTargets, setMut, mutTargets, List.mem_append]
      tauto
    · intro j hj
      have hj01 : j = 0 ∨ j = 1 := by simp [numThreads] at hj; omega
      rcases hj01 with rfl | rfl
      · simp [getMut, setMut]
      · simp [getMut, setMut]

/-- Core of barrier completion: the release of the shared lock together
with the pointer write `mem[obj].l = mem[sptr].l`, whose value is
marked-or-nil because the barrier's transitive mark has finished. -/
theorem inv_bdone_core (c c' : Config) (hI : Inv c) (i obj : Nat)
    (hi : i < numThreads)
    (hget : getMut c i = .barrierMark obj [])
    (hmem : c'.mem = c.mem.set obj
      ⟨(getObj c.mem (stackBase + i)).l, (getObj c.mem obj).r⟩)
    (hmk : c'.marked = c.marked)
    (hsc : c'.scanClock = c.scanClock) (hpc : c'.mainPC = c.mainPC)
    (hrd : c'.readers = c.readers - 1)
    (hcount : countBarrier c = countBarrier c' + 1)
    (hgr : grayTargets c' = grayTargets c)
    (hmuts : ∀ j, j < numThreads → getMut c' j =
      if j = i then .loadPtr else getMut c j) :
    Inv c' := by
  obtain ⟨hval, hobj3, hobj6⟩ := hI.barrierVal i hi obj [] hget
  have hvOK : (getObj c.mem (stackBase + i)).l = 0 ∨
      isMarked c.marked (getObj c.mem (stackBase + i)).l = true := by
    rcases hval with h | h | h
    · exact Or.inl h
    · exact Or.inr h
    · simp [targetsOf] at h
  have hobjlen : obj < c.mem.length := by rw [hI.memLenEq]; exact hobj6
  have hsne : ∀ j, j < numThreads → stackBase + j ≠ obj := by
    intro j hj
    simp [stackBase, numThreads, globalRoot] at hj hobj3 ⊢
    omega
  have hzne : (0 : Nat) ≠ obj := by
    simp [globalRoot] at hobj3
    omega
  have hcov : ∀ q, Covered c q → Covered c' q := by
    intro q h
    rcases h with h | h | h
    · exact Or.inl h
    · exact Or.inr (Or.inl (by rw [hmk]; exact h))
    · exact Or.inr (Or.inr (by rw [hgr]; exact h))
  refine
    { memLenEq := by rw [hmem]; simpa using hI.memLenEq
      markedLenEq := by rw [hmk]; exact hI.markedLenEq
      nilObj := by rw [hmem, getObj_set_ne hzne]; exact hI.nilObj
      fieldsL := ?_
      fieldsR := ?_
      lowUnmarked := by rw [hmk]; exact hI.lowUnmarked
      rootMarked := by rw [hmk]; exact hI.rootMarked
      rootL := ?_
      rootR := ?_
      blackFields := ?_
      graysOK := by rw [hgr]; exact hI.graysOK
      readersEq := by rw [hrd, hI.readersEq, hcount]; omega
      barrierVal := ?_
      stacksAfterScan := ?_
      lockPhase := ?_
      finishedOK := ?_ }
  · intro p hp
    rw [hmem]
    by_cases hpo : p = obj
    · subst hpo
      rw [getObj_set_self hobjlen]
      apply hI.fieldsL
      simp [stackBase, numThreads, memLen] at hi ⊢
      omega
    · rw [getObj_set_ne hpo]
      exact hI.fieldsL p hp
  · intro p hp
    rw [hmem]
    by_cases hpo : p = obj
    · subst hpo
      rw [getObj_set_self hobjlen]
      exact hI.fieldsR p hp
    · rw [getObj_set_ne hpo]
      exact hI.fieldsR p hp
  · rw [hmem, hmk]
    by_cases hro : globalRoot = obj
    · rw [← hro] at hobjlen ⊢
      rw [getObj_set_self hobjlen]
      simpa using hvOK
    · rw [getObj_set_ne hro]
      exact hI.rootL
  · rw [hmem, hmk]
    by_cases hro : globalRoot = obj
    · rw [← hro] at hobjlen ⊢
      rw [getObj_set_self hobjlen]
      exact hI.rootR
    · rw [getObj_set_ne hro]
      exact hI.rootR
  · intro p h1 h2 h3
    rw [hmk] at h3
    rw [hmem]
    by_cases hpo : p = obj
    · subst hpo
      rw [getObj_set_self hobjlen]
      constructor
      · rcases hvOK with h | h
        · exact Or.inl h
        · exact Or.inr (Or.inl (by rw [hmk]; exact h))
      · exact hcov _ (hI.blackFields p h1 h2 h3).2
    · rw [getObj_set_ne hpo]
      obtain ⟨hbl, hbr⟩ := hI.blackFields p h1 h2 h3
      exact ⟨hcov _ hbl, hcov _ hbr⟩
  · intro j hj obj' il' hmut
    rw [hmuts j hj] at hmut
    by_cases hji : j = i
    · subst hji
      simp at hmut
    · simp only [hji, if_false] at hmut
      obtain ⟨hval', ho⟩ := hI.barrierVal j hj obj' il' hmut
      rw [hmem, getObj_set_ne (hsne j hj), hmk]
      exact ⟨hval', ho⟩
  · intro j hj hjsc
    rw [hsc] at hjsc
    rw [hmem, getObj_set_ne (hsne j hj)]
    exact hcov _ (hI.stacksAfterScan j hj hjsc)
  · intro f hf
    rw [hpc] at hf
    rw [hsc]
    exact hI.lockPhase f hf
  · intro f hf
    rw [hpc] at hf
    exact hI.finishedOK f hf

theorem inv_step_bdone (c : Config) (hI : Inv c) (i obj : Nat)
    (hi : i < numThreads)
    (hget : getMut c i = .barrierMark obj []) :
    Inv (setMut { c with
      readers := c.readers - 1
      mem := c.mem.set obj
        ⟨(getObj c.mem (stackBase + i)).l, (getObj c.mem obj).r⟩ } i
      .loadPtr) := by
  have hi01 : i = 0 ∨ i = 1 := by simp [numThreads] at hi; omega
  rcases hi01 with rfl | rfl
  · have h0 : c.mut0 = .barrierMark obj [] := hget
    refine inv_bdone_core c _ hI 0 obj hi hget rfl rfl rfl rfl rfl ?_ ?_ ?_
    · simp [countBarrier, setMut, isBarrier, h0]
      omega
    · simp [grayTargets, setMut, h0, mutTargets, targetsOf]
    · intro j hj
      have hj01 : j = 0 ∨ j = 1 := by simp [numThreads] at hj; omega
      rcases hj01 with rfl | rfl
      · simp [getMut, setMut]
      · simp [getMut, setMut]
  · have h1 : c.mut1 = .barrierMark obj [] := hget
    refine inv_bdone_core c _ hI 1 obj hi hget rfl rfl rfl rfl rfl ?_ ?_ ?_
    · simp [countBarrier, setMut, isBarrier, h1]
    · simp [grayTargets, setMut, h1, mutTargets, targetsOf]
    · intro j hj
      have hj01 : j = 0 ∨ j = 1 := by simp [numThreads] at hj; omega
      rcases hj01 with rfl | rfl
      · simp [getMut, setMut]
      · simp [getMut, setMut]

/-- Core of the mutator's stack load `mem[sptr].l = mem[obj].l`: the
loaded pointer is a field of a root-reachable object, hence covered. -/
theorem inv_load_core (c c' : Config) (hI : Inv c) (i obj : Nat)
    (hi : i < numThreads)
    (hget : getMut c i = .loadPtr)
    (hreach : Reaches c.mem globalRoot obj)
    (hmem : c'.mem = c.mem.set (stackBase + i)
      ⟨(getObj c.mem obj).l, (getObj c.mem (stackBase + i)).r⟩)
    (hmk : c'.marked = c.marked)
    (hsc : c'.scanClock = c.scanClock) (hpc : c'.mainPC = c.mainPC)
    (hrd : c'.readers = c.readers)
    (hcount : countBarrier c' = countBarrier c)
    (hgr : grayTargets c' = grayTargets c)
    (hmuts : ∀ j, j < numThreads → getMut c' j =
      if j = i then .mdone else getMut c j) :
    Inv c' := by
  obtain ⟨hobj3, hobj6⟩ := reaches_heap_range hI.fieldsL hI.fieldsR
    (by simp [globalRoot, memLen]) hreach
  set sptr := stackBase + i with hsptr
  have hslen : sptr < c.mem.length := by
    rw [hI.memLenEq]
    simp [hsptr, stackBase, numThreads, memLen] at hi ⊢
    omega
  have hsne : ∀ p, globalRoot ≤ p → p ≠ sptr := by
    intro p hp
    simp [hsptr, stackBase, numThreads, globalRoot] at hi hp ⊢
    omega
  have hzne : (0 : Nat) ≠ sptr := by
    simp [hsptr, stackBase]
    omega
  have hcov : ∀ q, Covered c q → Covered c' q := by
    intro q h
    rcases h with h | h | h
    · exact Or.inl h
    · exact Or.inr (Or.inl (by rw [hmk]; exact h))
    · exact Or.inr (Or.inr (by rw [hgr]; exact h))
  have hcovw : Covered c (getObj c.mem obj).l := by
    by_cases hw0 : (getObj c.mem obj).l = 0
    · exact Or.inl hw0
    · have hwreach : Reaches c.mem globalRoot (getObj c.mem obj).l :=
        Reaches.viaL globalRoot obj hreach hw0
      obtain ⟨_, _, hc⟩ := reachable_covered c hI _ hwreach
      rcases hc with h | ⟨h, _⟩
      · exact Or.inr (Or.inl h)
      · exact Or.inr (Or.inr h)
  refine
    { memLenEq := by rw [hmem]; simpa using hI.memLenEq
      markedLenEq := by rw [hmk]; exact hI.markedLenEq
      nilObj := by rw [hmem, getObj_set_ne hzne]; exact hI.nilObj
      fieldsL := ?_
      fieldsR := ?_
      lowUnmarked := by rw [hmk]; exact hI.lowUnmarked
      rootMarked := by rw [hmk]; exact hI.rootMarked
      rootL := ?_
      rootR := ?_
      blackFields := ?_
      graysOK := by rw [hgr]; exact hI.graysOK
      readersEq := by rw [hrd, hcount, hI.readersEq]
      barrierVal := ?_
      stacksAfterScan := ?_
      lockPhase := ?_
      finishedOK := ?_ }
  · intro p hp
    rw [hmem]
    by_cases hps : p = sptr
    · subst hps
      rw [getObj_set_self hslen]
      exact hI.fieldsL obj hobj6
    · rw [getObj_set_ne hps]
      exact hI.fieldsL p hp
  · intro p hp
    rw [hmem]
    by_cases hps : p = sptr
    · subst hps
      rw [getObj_set_self hslen]
      exact hI.fieldsR sptr hp
    · rw [getObj_set_ne hps]
      exact hI.fieldsR p hp
  · rw [hmem, hmk, getObj_set_ne (hsne globalRoot (le_refl _))]
    exact hI.rootL
  · rw [hmem, hmk, getObj_set_ne (hsne globalRoot (le_refl _))]
    exact hI.rootR
  · intro p h1 h2 h3
    rw [hmk] at h3
    rw [hmem, getObj_set_ne (hsne p h1)]
    obtain ⟨hbl, hbr⟩ := hI.blackFields p h1 h2 h3
    exact ⟨hcov _ hbl, hcov _ hbr⟩
  · intro j hj obj' il' hmut
    rw [hmuts j hj] at hmut
    by_cases hji : j = i
    · subst hji
      simp at hmut
    · simp only [hji, if_false] at hmut
      obtain ⟨hval', ho⟩ := hI.barrierVal j hj obj' il' hmut
      have hne : stackBase + j ≠ sptr := by
        simp [hsptr, stackBase]
        omega
      rw [hmem, getObj_set_ne hne, hmk]
      refine ⟨?_, ho⟩
      exact hval'
  · intro j hj hjsc
    rw [hsc] at hjsc
    rw [hmem]
    by_cases hji : j = i
    · subst hji
      rw [getObj_set_self hslen]
      exact hcov _ hcovw
    · have hne : stackBase + j ≠ sptr := by
        simp [hsptr, stackBase]
        omega
      rw [getObj_set_ne hne]
      exact hcov _ (hI.stacksAfterScan j hj hjsc)
  · intro f hf
    rw [hpc] at hf
    rw [hsc]
    exact hI.lockPhase f hf
  · intro f hf
    rw [hpc] at hf
    exact hI.finishedOK f hf

theorem inv_step_load (c : Config) (hI : Inv c) (i obj : Nat)
    (hi : i < numThreads)
    (hget : getMut c i = .loadPtr)
    (hreach : Reaches c.mem globalRoot obj) :
    Inv (setMut { c with
      mem := c.mem.set (stackBase + i)
        ⟨(getObj c.mem obj).l, (getObj c.mem (stackBase + i)).r⟩ } i
      .mdone) := by
  have hi01 : i = 0 ∨ i = 1 := by simp [numThreads] at hi; omega
  rcases hi01 with rfl | rfl
  · have h0 : c.mut0 = .loadPtr := hget
    refine inv_load_core c _ hI 0 obj hi hget hreach rfl rfl rfl rfl rfl
      ?_ ?_ ?_
    · simp [countBarrier, setMut, isBarrier, h0]
    · simp [grayTargets, setMut, h0, mutTargets]
    · intro j hj
      have hj01 : j = 0 ∨ j = 1 := by simp [numThreads] at hj; omega
      rcases hj01 with rfl | rfl
      · simp [getMut, setMut]
      · simp [getMut, setMut]
  · have h1 : c.mut1 = .loadPtr := hget
    refine inv_load_core c _ hI 1 obj hi hget hreach rfl rfl rfl rfl rfl
      ?_ ?_ ?_
    · simp [countBarrier, setMut, isBarrier, h1]
    · simp [grayTargets, setMut, h1, mutTargets]
    · intro j hj
      have hj01 : j = 0 ∨ j = 1 := by simp [numThreads] at hj; omega
      rcases hj01 with rfl | rfl
      · simp [getMut, setMut]
      · simp [getMut, setMut]

/-- The invariant is preserved by every step of the trial under the
transitive-mark configuration. -/
theorem inv_step (c c' : Config) (hI : Inv c)
    (hs : Step true false c c') : Inv c' := by
  rcases hs with ⟨_, _, h⟩ | ⟨i, x, _, _, hi, h⟩
  · -- collector step
    unfold mainStepF at h
    rcases hpc : c.mainPC with m | _ | f
    · rw [hpc] at h
      match m, h with
      | none, h =>
        by_cases hsc : c.scanClock < numThreads
        · rw [if_pos hsc] at h
          rw [Option.some.injEq] at h
          subst h
          exact inv_step_iter c hI hpc hsc
        · rw [if_neg hsc] at h
          rw [Option.some.injEq] at h
          subst h
          exact inv_step_exit c hI hpc (by omega)
      | some [], h =>
        rw [Option.some.injEq] at h
        subst h
        exact inv_step_mfin c hI hpc
      | some (x :: xs), h =>
        rw [Option.some.injEq] at h
        subst h
        exact inv_step_mmark c hI (x :: xs) hpc
    · rw [hpc] at h
      by_cases hrd : c.readers = 0
      · rw [if_pos hrd] at h
        rw [Option.some.injEq] at h
        subst h
        exact inv_step_check c hI hpc hrd
      · rw [if_neg hrd] at h
        cases h
    · rw [hpc] at h
      cases h
  · -- mutator step
    unfold mutStepF at h
    rcases hm : getMut c i with _ | ⟨obj, il⟩ | _ | _
    · rw [hm] at h
      rcases hamb : ambReachableHeapPointer c.mem x with _ | obj
      · rw [hamb] at h
        cases h
      · rw [hamb] at h
        simp only [if_pos] at h
        rw [Option.some.injEq] at h
        subst h
        obtain ⟨ho3, ho6, _⟩ := amb_reachable_sound hI.memLenEq hamb
        exact inv_step_enter c hI i obj hi hm ho3 ho6
    · rw [hm] at h
      match il, h with
      | [], h =>
        rw [Option.some.injEq] at h
        subst h
        exact inv_step_bdone c hI i obj hi hm
      | x' :: xs', h =>
        rw [Option.some.injEq] at h
        subst h
        exact inv_step_bmark c hI i obj (x' :: xs') hi hm
    · rw [hm] at h
      rcases hamb : ambReachableHeapPointer c.mem x with _ | obj
      · rw [hamb] at h
        cases h
      · rw [hamb] at h
        rw [Option.some.injEq] at h
        subst h
        obtain ⟨_, _, hr⟩ := amb_reachable_sound hI.memLenEq hamb
        exact inv_step_load c hI i obj hi hm hr
    · rw [hm] at h
      cases h

/-- The invariant holds at every reachable state of a trial. -/
theorem inv_reachable (c0 c : Config) (h0 : Inv c0)
    (h : Reachable true false c0 c) : Inv c := by
  induction h with
  | refl => exact h0
  | tail _ hs ih => exact inv_step _ _ ih hs

/-! ## Auxiliary lemmas for the remaining claims -/

theorem setMut_marked (c : Config) (i : Nat) (s : MutPC) :
    (setMut c i s).marked = c.marked := by
  cases i <;> rfl

theorem setMut_mem (c : Config) (i : Nat) (s : MutPC) :
    (setMut c i s).mem = c.mem := by
  cases i <;> rfl

theorem getMut_setMut_cases (c : Config) (i j : Nat) (s : MutPC) :
    getMut (setMut c i s) j = s ∨ getMut (setMut c i s) j = getMut c j := by
  rcases i with _ | i <;> rcases j with _ | j <;> simp [getMut, setMut]

/-- Each step leaves the mark set alone or passes it through one
elementary mark transition. -/
theorem step_marked_shape (wm wr : Bool) (c c' : Config)
    (hs : Step wm wr c c') :
    c'.marked = c.marked ∨
      ∃ il, c'.marked = (markStep c.mem c.marked il).1 := by
  rcases hs with ⟨_, _, h⟩ | ⟨i, x, _, _, hi, h⟩
  · unfold mainStepF at h
    rcases hpc : c.mainPC with m | _ | f
    · rw [hpc] at h
      match m, h with
      | none, h =>
        by_cases hsc : c.scanClock < numThreads
        · rw [if_pos hsc, Option.some.injEq] at h
          subst h
          exact Or.inl rfl
        · rw [if_neg hsc, Option.some.injEq] at h
          subst h
          exact Or.inl rfl
      | some [], h =>
        rw [Option.some.injEq] at h
        subst h
        exact Or.inl rfl
      | some (x :: xs), h =>
        rw [Option.some.injEq] at h
        subst h
        exact Or.inr ⟨x :: xs, rfl⟩
    · rw [hpc] at h
      by_cases hrd : c.readers = 0
      · rw [if_pos hrd, Option.some.injEq] at h
        subst h
        exact Or.inl rfl
      · rw [if_neg hrd] at h
        cases h
    · rw [hpc] at h
      cases h
  · unfold mutStepF at h
    rcases hm : getMut c i with _ | ⟨obj, il⟩ | _ | _
    · rw [hm] at h
      rcases hamb : ambReachableHeapPointer c.mem x with _ | obj
      · rw [hamb] at h; cases h
      · rw [hamb] at h
        by_cases hwm : wm = true
        · rw [hwm] at h
          simp only [if_pos] at h
          rw [Option.some.injEq] at h
          subst h
          exact Or.inl (setMut_marked _ _ _)
        · simp only [Bool.not_eq_true] at hwm
          rw [hwm] at h
          simp only [Bool.false_eq_true, if_false] at h
          rw [Option.some.injEq] at h
          subst h
          exact Or.inl (setMut_marked _ _ _)
    · rw [hm] at h
      match il, h with
      | [], h =>
        rw [Option.some.injEq] at h
        subst h
        exact Or.inl (setMut_marked _ _ _)
      | x' :: xs', h =>
        rw [Option.some.injEq] at h
        subst h
        refine Or.inr ⟨x' :: xs', ?_⟩
        exact setMut_marked _ _ _
    · rw [hm] at h
      rcases hamb : ambReachableHeapPointer c.mem x with _ | obj
      · rw [hamb] at h; cases h
      · rw [hamb] at h
        rw [Option.some.injEq] at h
        subst h
        exact Or.inl (setMut_marked _ _ _)
    · rw [hm] at h
      cases h

theorem markRunF_nil (mem : Mem) (marked : Marked) :
    ∀ fuel, markRunF mem fuel marked [] = (marked, [], true) := by
  intro fuel
  cases fuel <;> rfl

/-- The mark engine emits no pointer-write events. -/
theorem markRunF_no_write (mem : Mem) :
    ∀ (fuel : Nat) (marked : Marked) (il : List MInstr) (s v : Nat),
      Event.writeE s v ∉ (markRunF mem fuel marked il).2.1 := by
  intro fuel
  induction fuel with
  | zero => intro marked il s v; simp [markRunF]
  | succ fuel ih =>
    intro marked il s v
    match il with
    | [] => simp [markRunF]
    | .yld :: rest =>
      simp only [markRunF, List.mem_cons]
      rintro (h | h)
      · cases h
      · exact ih marked rest s v h
    | .call p :: rest =>
      by_cases hs : markSkip mem marked p = true
      · simp only [markRunF, hs, if_true]
        exact ih marked rest s v
      · simp only [markRunF, hs, if_false, Bool.false_eq_true,
          List.mem_cons]
        rintro (h | h)
        · cases h
        · exact ih _ _ s v h

/-- A mark set closed under fields. -/
def MarkedClosed (mem : Mem) (marked : Marked) : Prop :=
  ∀ q, isMarked marked q = true →
    ((getObj mem q).l = 0 ∨ isMarked marked (getObj mem q).l = true) ∧
    ((getObj mem q).r = 0 ∨ isMarked marked (getObj mem q).r = true)

theorem getObj_default {mem : Mem} {p : Nat} (h : mem.length ≤ p) :
    getObj mem p = ⟨0, 0⟩ := by
  unfold getObj
  exact List.getD_eq_default _ _ h

/-- Starting from a mark set that is closed under fields, a complete
`mark(p0)` marks every in-range slot reachable from `p0`. -/
theorem markFull_complete (mem : Mem) (marked : Marked) (p0 : Nat)
    (hlen : marked.length = mem.length) (hclosed : MarkedClosed mem marked) :
    ∀ q, Reaches mem p0 q → q < mem.length →
      isMarked (markFull mem marked [.call p0]).1 q = true := by
  have hok := markFull_complete_run mem marked [.call p0]
  have hlen' : (markFull mem marked [.call p0]).1.length = mem.length := by
    unfold markFull
    rw [markRunF_length]
    exact hlen
  intro q hq
  induction hq with
  | refl hne =>
    intro hqlen
    have := markRunF_targets mem _ marked [.call p0] hok p0
      (by simp [targetsOf])
    unfold fieldDone at this
    unfold markFull
    rcases this with h | h | h | h
    · exact absurd h hne
    · omega
    · rw [markRunF_length] at h
      omega
    · exact h
  | viaL q' _ hne ih =>
    intro hqlen
    have hq'len : q' < mem.length := by
      by_contra hc
      rw [getObj_default (by omega)] at hne
      exact hne rfl
    have hmq' := ih hq'len
    unfold markFull at hmq' ⊢
    rcases markRunF_closed mem _ marked [.call p0] hok q' hmq' with
      hpre | ⟨hfl, _⟩
    · rcases (hclosed q' hpre).1 with h | h
      · exact absurd h hne
      · exact markRunF_mono mem _ marked [.call p0] h
    · unfold fieldDone at hfl
      rcases hfl with h | h | h | h
      · exact absurd h hne
      · omega
      · rw [markRunF_length] at h
        omega
      · exact h
  | viaR q' _ hne ih =>
    intro hqlen
    have hq'len : q' < mem.length := by
      by_contra hc
      rw [getObj_default (by omega)] at hne
      exact hne rfl
    have hmq' := ih hq'len
    unfold markFull at hmq' ⊢
    rcases markRunF_closed mem _ marked [.call p0] hok q' hmq' with
      hpre | ⟨_, hfr⟩
    · rcases (hclosed q' hpre).2 with h | h
      · exact absurd h hne
      · exact markRunF_mono mem _ marked [.call p0] h
    · unfold fieldDone at hfr
      rcases hfr with h | h | h | h
      · exact absurd h hne
      · omega
      · rw [markRunF_length] at h
        omega
      · exact h

theorem selectLoop_total :
    ∀ (bs : List Bool) (x i : Nat), x < (bs.filter id).length →
      ∃ p, selectLoop bs x i = some p := by
  intro bs
  induction bs with
  | nil => intro x i h; simp at h
  | cons b rest ih =>
    intro x i h
    by_cases hb : b = true
    · subst hb
      simp only [List.filter, id] at h
      by_cases hx : x = 0
      · subst hx
        exact ⟨globalRoot + i, by simp [selectLoop]⟩
      · obtain ⟨p, hp⟩ := ih (x - 1) (i + 1) (by simp at h; omega)
        exact ⟨p, by simp [selectLoop, hx, hp]⟩
    · simp only [Bool.not_eq_true] at hb
      subst hb
      simp only [List.filter, id] at h
      obtain ⟨p, hp⟩ := ih x (i + 1) (by simpa using h)
      exact ⟨p, by simp [selectLoop, hp]⟩

theorem ambHeapPointer_ok {x : Nat} (hx : x < memLen - globalRoot + 1) :
    PtrOK (ambHeapPointer x) := by
  unfold ambHeapPointer PtrOK
  by_cases h0 : x = 0
  · simp [h0]
  · simp only [h0, if_false]
    right
    simp [globalRoot, memLen] at hx ⊢
    omega

/-- Every memory built by the construction loop from in-range ambiguous
choices is a well-formed graph. -/
theorem buildMem_GraphOK (cl cr : Nat → Nat)
    (hcl : ∀ i, cl i < memLen - globalRoot + 1)
    (hcr : ∀ i, cr i < memLen - globalRoot + 1) :
    GraphOK (buildMem cl cr) := by
  refine ⟨rfl, rfl, ?_, ?_, ?_⟩
  · intro i hi
    simp only [memLen] at hi
    interval_cases i <;>
      first
        | exact Or.inl rfl
        | exact ambHeapPointer_ok (hcl _)
  · intro i hi
    simp only [memLen] at hi
    interval_cases i <;>
      first
        | exact Or.inl rfl
        | exact ambHeapPointer_ok (hcr _)
  · intro i hi
    simp only [globalRoot] at hi
    interval_cases i <;> rfl

/-- The length/range invariant of a trial, independent of the
write-barrier policy flags. -/
structure RangeInv (c : Config) : Prop where
  lenEq : c.mem.length = memLen
  fieldsL : ∀ i, i < memLen → PtrOK (getObj c.mem i).l
  fieldsR : ∀ i, i < memLen → PtrOK (getObj c.mem i).r
  objBound : ∀ i obj il, getMut c i = .barrierMark obj il → obj < memLen

theorem mainStepF_frame (c c' : Config) (h : mainStepF c = some c') :
    c'.mem = c.mem ∧ c'.mut0 = c.mut0 ∧ c'.mut1 = c.mut1 := by
  unfold mainStepF at h
  rcases hpc : c.mainPC with m | _ | f
  · rw [hpc] at h
    match m, h with
    | none, h =>
      by_cases hsc : c.scanClock < numThreads
      · rw [if_pos hsc, Option.some.injEq] at h
        subst h
        exact ⟨rfl, rfl, rfl⟩
      · rw [if_neg hsc, Option.some.injEq] at h
        subst h
        exact ⟨rfl, rfl, rfl⟩
    | some [], h =>
      rw [Option.some.injEq] at h
      subst h
      exact ⟨rfl, rfl, rfl⟩
    | some (x :: xs), h =>
      rw [Option.some.injEq] at h
      subst h
      exact ⟨rfl, rfl, rfl⟩
  · rw [hpc] at h
    by_cases hrd : c.readers = 0
    · rw [if_pos hrd, Option.some.injEq] at h
      subst h
      exact ⟨rfl, rfl, rfl⟩
    · rw [if_neg hrd] at h
      cases h
  · rw [hpc] at h
    cases h

/-- Range preservation for the heap write `mem[p].l = v`. -/
theorem rangeFields_set (mem : Mem) (p v : Nat)
    (hlen : mem.length = memLen)
    (hL : ∀ i, i < memLen → PtrOK (getObj mem i).l)
    (hR : ∀ i, i < memLen → PtrOK (getObj mem i).r)
    (hp : p < memLen) (hv : PtrOK v) :
    (∀ i, i < memLen → PtrOK (getObj (mem.set p ⟨v, (getObj mem p).r⟩) i).l) ∧
    (∀ i, i < memLen → PtrOK (getObj (mem.set p ⟨v, (getObj mem p).r⟩) i).r) := by
  constructor
  · intro i hi
    by_cases hip : i = p
    · subst hip
      rw [getObj_set_self (by omega)]
      exact hv
    · rw [getObj_set_ne hip]
      exact hL i hi
  · intro i hi
    by_cases hip : i = p
    · subst hip
      rw [getObj_set_self (by omega)]
      exact hR i hi
    · rw [getObj_set_ne hip]
      exact hR i hi

/-- The range invariant is preserved by every step, for every policy
configuration. -/
theorem range_step (wm wr : Bool) (c c' : Config) (hR : RangeInv c)
    (hs : Step wm wr c c') : RangeInv c' := by
  rcases hs with ⟨_, _, h⟩ | ⟨i, x, _, _, hi, h⟩
  · obtain ⟨hmem, h0, h1⟩ := mainStepF_frame c _ h
    refine ⟨by rw [hmem]; exact hR.lenEq, by rw [hmem]; exact hR.fieldsL,
      by rw [hmem]; exact hR.fieldsR, ?_⟩
    intro j obj il hmut
    have : getMut c' j = getMut c j := by
      rcases j with _ | j
      · simp [getMut, h0]
      · simp [getMut, h1]
    rw [this] at hmut
    exact hR.objBound j obj il hmut
  · unfold mutStepF at h
    rcases hm : getMut c i with _ | ⟨obj, il⟩ | _ | _
    · rw [hm] at h
      rcases hamb : ambReachableHeapPointer c.mem x with _ | obj
      · rw [hamb] at h; cases h
      · obtain ⟨ho3, ho6, _⟩ := amb_reachable_sound hR.lenEq hamb
        rw [hamb] at h
        by_cases hwm : wm = true
        · rw [hwm] at h
          simp only [if_pos] at h
          rw [Option.some.injEq] at h
          subst h
          refine ⟨by rw [setMut_mem]; exact hR.lenEq,
            by rw [setMut_mem]; exact hR.fieldsL,
            by rw [setMut_mem]; exact hR.fieldsR, ?_⟩
          intro j obj' il' hmut
          rcases getMut_setMut_cases _ i j _ with hc | hc
          · rw [hc] at hmut
            injection hmut with h1 h2
            subst h1
            exact ho6
          · rw [hc] at hmut
            exact hR.objBound j obj' il' hmut
        · simp only [Bool.not_eq_true] at hwm
          rw [hwm] at h
          simp only [Bool.false_eq_true, if_false] at h
          rw [Option.some.injEq] at h
          subst h
          have hv : PtrOK (getObj c.mem (stackBase + i)).l := by
            apply hR.fieldsL
            simp [stackBase, numThreads, memLen] at hi ⊢
            omega
          obtain ⟨hL', hR'⟩ := rangeFields_set c.mem obj
            (getObj c.mem (stackBase + i)).l hR.lenEq hR.fieldsL
            hR.fieldsR ho6 hv
          refine ⟨?_, ?_, ?_, ?_⟩
          · rw [setMut_mem]; simpa using hR.lenEq
          · rw [setMut_mem]; exact hL'
          · rw [setMut_mem]; exact hR'
          · intro j obj' il' hmut
            rcases getMut_setMut_cases _ i j _ with hc | hc
            · rw [hc] at hmut
              cases hmut
            · rw [hc] at hmut
              exact hR.objBound j obj' il' hmut
    · rw [hm] at h
      match il, h with
      | [], h =>
        rw [Option.some.injEq] at h
        subst h
        have hobj6 : obj < memLen := hR.objBound i obj [] hm
        have hv : PtrOK (getObj c.mem (stackBase + i)).l := by
          apply hR.fieldsL
          simp [stackBase, numThreads, memLen] at hi ⊢
          omega
        obtain ⟨hL', hR'⟩ := rangeFields_set c.mem obj
          (getObj c.mem (stackBase + i)).l hR.lenEq hR.fieldsL
          hR.fieldsR hobj6 hv
        refine ⟨?_, ?_, ?_, ?_⟩
        · rw [setMut_mem]; simpa using hR.lenEq
        · rw [setMut_mem]; exact hL'
        · rw [setMut_mem]; exact hR'
        · intro j obj' il' hmut
          rcases getMut_setMut_cases _ i j _ with hc | hc
          · rw [hc] at hmut
            cases hmut
          · rw [hc] at hmut
            exact hR.objBound j obj' il' hmut
      | x' :: xs', h =>
        rw [Option.some.injEq] at h
        subst h
        refine ⟨by rw [setMut_mem]; exact hR.lenEq,
          by rw [setMut_mem]; exact hR.fieldsL,
          by rw [setMut_mem]; exact hR.fieldsR, ?_⟩
        intro j obj' il' hmut
        rcases getMut_setMut_cases _ i j _ with hc | hc
        · rw [hc] at hmut
          injection hmut with h1 h2
          subst h1
          exact hR.objBound i obj (x' :: xs') hm
        · rw [hc] at hmut
          exact hR.objBound j obj' il' hmut
    · rw [hm] at h
      rcases hamb : ambReachableHeapPointer c.mem x with _ | obj
      · rw [hamb] at h; cases h
      · obtain ⟨ho3, ho6, _⟩ := amb_reachable_sound hR.lenEq hamb
        rw [hamb] at h
        rw [Option.some.injEq] at h
        subst h
        have hslen : stackBase + i < memLen := by
          simp [stackBase, numThreads, memLen] at hi ⊢
          omega
        have hv : PtrOK (getObj c.mem obj).l := hR.fieldsL obj ho6
        obtain ⟨hL', hR'⟩ := rangeFields_set c.mem (stackBase + i)
          (getObj c.mem obj).l hR.lenEq hR.fieldsL hR.fieldsR hslen hv
        refine ⟨?_, ?_, ?_, ?_⟩
        · rw [setMut_mem]; simpa using hR.lenEq
        · rw [setMut_mem]; exact hL'
        · rw [setMut_mem]; exact hR'
        · intro j obj' il' hmut
          rcases getMut_setMut_cases _ i j _ with hc | hc
          · rw [hc] at hmut
            cases hmut
          · rw [hc] at hmut
            exact hR.objBound j obj' il' hmut
    · rw [hm] at h
      cases h

/-- The range invariant holds at the start of a trial on a well-formed
graph and hence at every reachable state. -/
theorem range_reachable (wm wr : Bool) (g : Mem) (c : Config)
    (hG : GraphOK g) (hr : Reachable wm wr (initConfig g) c) :
    RangeInv c := by
  obtain ⟨hlen, _, hL, hRf, _⟩ := hG
  have h0 : RangeInv (initConfig g) := by
    refine ⟨hlen, hL, hRf, ?_⟩
    intro i obj il hmut
    rcases i with _ | i
    · simp [initConfig, getMut] at hmut
    · simp [initConfig, getMut] at hmut
  induction hr with
  | refl => exact h0
  | tail _ hs ih => exact range_step wm wr _ _ ih hs

/-! ## Concrete instances used by witnesses and counterexamples -/

/-- The all-nil graph: every ambiguous construction choice is 0. -/
def gW : Mem := buildMem (fun _ => 0) (fun _ => 0)

/-- Deterministic collector-only execution: apply `mainStepF` when it
fires. -/
def mstep (c : Config) : Config := (mainStepF c).getD c

/-- The final state of the collector-only trial on the all-nil graph. -/
def cW : Config := mstep^[8] (initConfig gW)

/-- A six-slot memory whose first stack slot points at the global
root. -/
def cxMem : Mem :=
  [⟨0, 0⟩, ⟨3, 0⟩, ⟨0, 0⟩, ⟨0, 0⟩, ⟨0, 0⟩, ⟨0, 0⟩]

/-- A mark set where only the global root (slot 3) is marked. -/
def cxMarked : Marked := [false, false, false, true, false, false]

/-- The collector-only trial on the all-nil graph runs to its final
checked state in eight elementary steps. -/
theorem reach_cW : Reachable writeMarks writeRestarts (initConfig gW) cW := by
  have hstep : ∀ k, k < 8 →
      mainStepF (mstep^[k] (initConfig gW)) =
        some (mstep^[k + 1] (initConfig gW)) := by decide
  have hreach : ∀ k, k ≤ 8 →
      Reachable writeMarks writeRestarts (initConfig gW)
        (mstep^[k] (initConfig gW)) := by
    intro k hk
    induction k with
    | zero => exact Relation.ReflTransGen.refl
    | succ n ih =>
      exact Relation.ReflTransGen.tail (ih (by omega))
        (Step.collector _ _ (hstep n (by omega)))
  exact hreach 8 (by omega)

/-! ## The claims -/

/-- C1: under the transitive-mark write-barrier policy — the source's
build configuration `writeMarks = true`, `writeRestarts = false` — for
every constructible heap graph, every interleaving of the collector and
the mutators, and every sequence of ambiguous choices, a trial that runs
to completion never reports an invariant violation: when the collector
reaches its final state, the checkmark walks from the global root and
from both thread stack slots (rescan.go lines 110-113) found every
reachable object marked and report no fault.  Heap-object fields can
never point at stack slots in any constructible graph (`GraphOK`), so
every such graph satisfies the claim's no-cycles-through-stack-slots
hypothesis. -/
theorem transitiveMark_no_violation (g : Mem) (hG : GraphOK g)
    (c : Config) (hr : Reachable writeMarks writeRestarts (initConfig g) c)
    (f : Option Nat) (hf : c.mainPC = .finished f) : f = none :=
  (inv_reachable _ _ (inv_init g hG) hr).finishedOK f hf

/-- C1 witness: the collector-only trial on the all-nil graph reaches a
final state whose check reports no fault. -/
theorem transitiveMark_no_violation_witness :
    checkAll cW.mem cW.marked = none :=
  transitiveMark_no_violation gW (by decide) cW reach_cW
    (checkAll cW.mem cW.marked) (by decide)

/-- C2 counterexample: under the scan-restart policy (`writeMarks =
false`, `writeRestarts = true`), a barrier invocation `wbarrier(4, 1)`
with non-null source slot 1 resets the scan clock from 1 to 0 even
though the object about to become heap-visible — the target of slot 1's
left field, slot 3 — is already marked: the code (rescan.go line 170)
tests `marked[val]`, the mark bit of the source slot itself, not
`marked[mem[val].l]`, so the claim's "otherwise the scan clock is left
unchanged" fails at this input. -/
theorem wbarrier_restart_pointee_counterexample :
    isMarked cxMarked (getObj cxMem 1).l = true ∧
    (wbarrierSeq false true cxMem cxMarked 1 4 1).scanClock = 0 := by
  decide

/-- C2 (amended): under the scan-restart policy, a write-barrier
invocation `wbarrier(slot, src)` with `src` non-null resets the scan
clock to zero if and only if the *source slot* `src` itself is not yet
marked (rescan.go line 170 tests `marked[val]`); otherwise the scan
clock is left unchanged by the barrier. -/
theorem wbarrier_restart_amended (mem : Mem) (marked : Marked)
    (sc slot val : Nat) (hval : val ≠ 0) :
    (wbarrierSeq false true mem marked sc slot val).scanClock =
      if isMarked marked val = true then sc else 0 := by
  by_cases hm : isMarked marked val = true
  · simp [wbarrierSeq, hval, hm]
  · simp only [Bool.not_eq_true] at hm
    simp [wbarrierSeq, hval, hm]

/-- C2 witness: the amended statement evaluated at the counterexample's
input — the source slot 1 is unmarked, so the clock resets to zero. -/
theorem wbarrier_restart_amended_witness :
    (1 : Nat) ≠ 0 ∧
    (wbarrierSeq false true cxMem cxMarked 1 4 1).scanClock =
      if isMarked cxMarked 1 = true then 1 else 0 :=
  ⟨by decide, wbarrier_restart_amended cxMem cxMarked 1 4 1 (by decide)⟩

/-- C3: `checkmark(p)` walks the objects reachable from `p` through
`l`/`r` fields with its own fresh `checkmarked` set, independent of the
mark engine's bookkeeping, and reading but never writing `mem`, `marked`
or the scan clock (it is a pure function of them in this embedding, as in
the source).  It returns normally iff every object reachable from `p`
has its mark bit set, and a fault always names a reachable slot whose
mark bit is false. -/
theorem checkmark_fault_characterization (mem : Mem) (marked : Marked)
    (p : Nat) (hml : marked.length ≤ mem.length) :
    (checkmark mem marked p = none ↔
      ∀ q, Reaches mem p q → isMarked marked q = true) ∧
    ∀ k, checkmark mem marked p = some k →
      Reaches mem p k ∧ isMarked marked k = false :=
  ⟨checkmark_none_iff mem marked p hml,
   fun k h => checkmark_fault_reachable mem marked p k hml h⟩

/-- C3 witness: the characterization applied at the concrete memory
`cxMem` with only the root marked, rooted at the marked slot 3. -/
theorem checkmark_fault_characterization_witness :
    cxMarked.length ≤ cxMem.length ∧
    ((checkmark cxMem cxMarked 3 = none ↔
      ∀ q, Reaches cxMem 3 q → isMarked cxMarked q = true) ∧
    ∀ k, checkmark cxMem cxMarked 3 = some k →
      Reaches cxMem 3 k ∧ isMarked cxMarked k = false) :=
  ⟨by decide, checkmark_fault_characterization cxMem cxMarked 3 (by decide)⟩

/-- C4: under the transitive-mark policy, a write-barrier invocation
`wbarrier(slot, val)` with non-null `val` first acquires the shared
mode of the stop-the-world lock, applies the mark engine to the object
`mem[val].l` in the global mark set, releases the shared lock, and only
then performs the pointer write: the event trace is exactly the
acquire, the mark engine's events, the release, the write, the yield,
in that order.  The mark set only grows, and — whenever the current
mark set is closed under fields, as it is at barrier entry whenever no
other mark is mid-flight — afterwards every in-range object reachable
from `mem[val].l` is marked. -/
theorem wbarrier_transitive_mark (mem : Mem) (marked : Marked)
    (sc slot val : Nat) (hval : val ≠ 0)
    (hlen : marked.length = mem.length) :
    (wbarrierSeq true false mem marked sc slot val).marked =
      (markFull mem marked [.call (getObj mem val).l]).1 ∧
    (wbarrierSeq true false mem marked sc slot val).trace =
      Event.rlockE :: (markFull mem marked [.call (getObj mem val).l]).2 ++
        [Event.runlockE, Event.writeE slot (getObj mem val).l,
          Event.yieldE] ∧
    (∀ q, isMarked marked q = true →
      isMarked (wbarrierSeq true false mem marked sc slot val).marked q =
        true) ∧
    (MarkedClosed mem marked →
      ∀ q, Reaches mem (getObj mem val).l q → q < mem.length →
        isMarked (wbarrierSeq true false mem marked sc slot val).marked q =
          true) := by
  have hmarked : (wbarrierSeq true false mem marked sc slot val).marked =
      (markFull mem marked [.call (getObj mem val).l]).1 := by
    simp [wbarrierSeq, hval]
  refine ⟨hmarked, ?_, ?_, ?_⟩
  · simp [wbarrierSeq, hval]
  · intro q hq
    rw [hmarked]
    unfold markFull
    exact markRunF_mono mem _ marked _ hq
  · intro hclosed q hq hqlen
    rw [hmarked]
    exact markFull_complete mem marked _ hlen hclosed q hq hqlen

/-- C4 witness: the barrier applied at `cxMem` with source slot 1
(pointing at the marked root), on the root-closed mark set. -/
theorem wbarrier_transitive_mark_witness :
    (1 : Nat) ≠ 0 ∧ cxMarked.length = cxMem.length ∧
    (wbarrierSeq true false cxMem cxMarked 0 4 1).marked =
      (markFull cxMem cxMarked [.call (getObj cxMem 1).l]).1 :=
  ⟨by decide, by decide,
    (wbarrier_transitive_mark cxMem cxMarked 0 4 1 (by decide)
      (by decide)).1⟩

/-- C5: every write-barrier invocation `wbarrier(slot, val)`, after the
active policy ran, itself performs the pointer write — the resulting
memory is exactly the old memory with `slot`'s left field set to the
value `mem[val].l` holds at that moment, every other field of every
slot unchanged — and then yields exactly one scheduling step: the trace
ends with the single write event followed by one yield, and no other
write event occurs anywhere in the trace. -/
theorem wbarrier_write_once (wm wr : Bool) (mem : Mem) (marked : Marked)
    (sc slot val : Nat) :
    (wbarrierSeq wm wr mem marked sc slot val).mem =
      mem.set slot ⟨(getObj mem val).l, (getObj mem slot).r⟩ ∧
    ∃ t, (wbarrierSeq wm wr mem marked sc slot val).trace =
      t ++ [Event.writeE slot (getObj mem val).l, Event.yieldE] ∧
      ∀ s v, Event.writeE s v ∉ t := by
  have hnw : ∀ s v, Event.writeE s v ∉
      (markFull mem marked [.call (getObj mem val).l]).2 := by
    intro s v
    unfold markFull
    exact markRunF_no_write mem _ marked _ s v
  refine ⟨rfl, ?_⟩
  by_cases h1 : val ≠ 0 ∧ wm = true
  · have hv0 : val ≠ 0 := h1.1
    by_cases h2 : wr = true ∧
        isMarked (markFull mem marked
          [.call (getObj mem val).l]).1 val = false
    · refine ⟨Event.rlockE ::
        ((markFull mem marked [.call (getObj mem val).l]).2 ++
          [Event.runlockE, Event.restartE]), ?_, ?_⟩
      · simp [wbarrierSeq, h1, hv0, h2]
      · intro s v hv
        rw [List.mem_cons] at hv
        rcases hv with hv | hv
        · cases hv
        · rw [List.mem_append] at hv
          rcases hv with hv | hv
          · exact hnw s v hv
          · simp at hv
    · refine ⟨Event.rlockE ::
        ((markFull mem marked [.call (getObj mem val).l]).2 ++
          [Event.runlockE]), ?_, ?_⟩
      · simp [wbarrierSeq, h1, hv0, h2]
      · intro s v hv
        rw [List.mem_cons] at hv
        rcases hv with hv | hv
        · cases hv
        · rw [List.mem_append] at hv
          rcases hv with hv | hv
          · exact hnw s v hv
          · simp at hv
  · by_cases h2 : val ≠ 0 ∧ wr = true ∧ isMarked marked val = false
    · have hwm : ¬ wm = true := fun hw => h1 ⟨h2.1, hw⟩
      refine ⟨[Event.restartE], ?_, ?_⟩
      · simp [wbarrierSeq, hwm, h2.1, h2.2.1, h2.2.2]
      · intro s v hv
        simp at hv
    · refine ⟨[], ?_, ?_⟩
      · simp [wbarrierSeq, h1, h2]
      · intro s v hv
        simp at hv

/-- C6: the mark engine is idempotent at the call boundary — invoking
`mark(p)` when `p` is nil or already marked returns immediately: it
changes no mark bit and emits no event, in particular no scheduling
yield; it never touches `mem` at all (the engine only reads it). -/
theorem mark_skip_noop (mem : Mem) (marked : Marked) (p : Nat)
    (h : p = 0 ∨ isMarked marked p = true) :
    markFull mem marked [.call p] = (marked, []) := by
  have hskip : markSkip mem marked p = true := by
    unfold markSkip
    rcases h with h | h <;> simp [h]
  unfold markFull
  have hf : markFuel marked [.call p] =
      (List.length [MInstr.call p] + 4 * unmarkedCount marked) + 1 := rfl
  rw [hf]
  simp only [markRunF, hskip, if_true]
  rw [markRunF_nil]

/-- C6 witness: marking the nil pointer, and marking the already-marked
root of `cxMarked`, are both complete no-ops. -/
theorem mark_skip_noop_witness :
    ((0 : Nat) = 0 ∨ isMarked cxMarked 0 = true) ∧
    markFull cxMem cxMarked [.call 0] = (cxMarked, []) ∧
    markFull cxMem cxMarked [.call 3] = (cxMarked, []) :=
  ⟨Or.inl rfl, mark_skip_noop cxMem cxMarked 0 (Or.inl rfl),
    mark_skip_noop cxMem cxMarked 3 (Or.inr (by decide))⟩

/-- C7: the collector's re-scanning loop (rescan.go lines 94-100).
At its head with the in-progress mark finished: if the scan clock is
below `numThreads` the next step increments the clock and starts a mark
of the *current* left-field value of the stack slot of thread
`scanClock` (that is, thread `scanClock - 1` after the increment);
otherwise the loop exits to `world.Lock()`.  The loop exits only with
`numThreads ≤ scanClock`, and the iteration behaviour is independent of
history, so after a scan-restart reset to zero the already-scanned
threads are scanned again from thread 0. -/
theorem rescan_loop_structure (c : Config)
    (hpc : c.mainPC = .rescanning none) :
    (c.scanClock < numThreads →
      mainStepF c = some { c with
        scanClock := c.scanClock + 1
        mainPC := .rescanning
          (some [.call (getObj c.mem (stackBase + c.scanClock)).l]) }) ∧
    (numThreads ≤ c.scanClock →
      mainStepF c = some { c with mainPC := .lockWait }) ∧
    (∀ c', mainStepF c = some c' → c'.mainPC = .lockWait →
      numThreads ≤ c.scanClock) := by
  refine ⟨?_, ?_, ?_⟩
  · intro hsc
    unfold mainStepF
    rw [hpc]
    simp [hsc]
  · intro hsc
    unfold mainStepF
    rw [hpc]
    rw [if_neg (by omega)]
  · intro c' h hl
    unfold mainStepF at h
    rw [hpc] at h
    by_cases hsc : c.scanClock < numThreads
    · rw [if_pos hsc, Option.some.injEq] at h
      subst h
      simp at hl
    · omega

/-- C7 witness: the loop applied at the freshly initialized all-nil
trial, whose scan clock is zero. -/
theorem rescan_loop_structure_witness :
    (initConfig gW).scanClock < numThreads ∧
    mainStepF (initConfig gW) = some { (initConfig gW) with
      scanClock := (initConfig gW).scanClock + 1
      mainPC := .rescanning (some [.call (getObj (initConfig gW).mem
        (stackBase + (initConfig gW).scanClock)).l]) } :=
  ⟨by decide, (rescan_loop_structure (initConfig gW) rfl).1 (by decide)⟩

/-- C8: the global mark set is monotone across every step of the
transition system, for both write-barrier policies: no transition of
any thread — the mark engine, the write barrier, the collector's
rescans or the final check — ever clears a mark bit after graph
construction initialized the set.  In particular this holds for the
source's configuration `writeMarks = true`, `writeRestarts = false`. -/
theorem marked_monotone_step (wm wr : Bool) (c c' : Config)
    (hs : Step wm wr c c') (q : Nat)
    (h : isMarked c.marked q = true) : isMarked c'.marked q = true := by
  rcases step_marked_shape wm wr c c' hs with he | ⟨il, he⟩
  · rw [he]; exact h
  · rw [he]; exact markStep_mono c.mem c.marked il h

/-- C8 witness: the root's mark bit survives the first collector step of
the all-nil trial. -/
theorem marked_monotone_step_witness :
    isMarked (initConfig gW).marked 3 = true ∧
    isMarked (mstep^[1] (initConfig gW)).marked 3 = true :=
  ⟨by decide, marked_monotone_step writeMarks writeRestarts
    (initConfig gW) (mstep^[1] (initConfig gW))
    (Step.collector _ _ (by decide)) 3 (by decide)⟩

/-- C9: graph construction (the `ambHeapPointer` loop of `main`) always
produces a memory whose every pointer field is null or a heap index in
`[globalRoot, memLen)`, and this is preserved at every reachable state
of a trial under either policy: the write barrier's heap write and the
mutator's stack load only copy existing left-field values, so no field
of any slot — in particular no heap object's field — ever points into
the stack region. -/
theorem fields_in_heap_range :
    (∀ cl cr : Nat → Nat,
      (∀ i, cl i < memLen - globalRoot + 1) →
      (∀ i, cr i < memLen - globalRoot + 1) →
      GraphOK (buildMem cl cr)) ∧
    (∀ (wm wr : Bool) (g : Mem) (c : Config), GraphOK g →
      Reachable wm wr (initConfig g) c →
      ∀ i, i < memLen →
        PtrOK (getObj c.mem i).l ∧ PtrOK (getObj c.mem i).r) := by
  constructor
  · exact buildMem_GraphOK
  · intro wm wr g c hG hr i hi
    have hRi := range_reachable wm wr g c hG hr
    exact ⟨hRi.fieldsL i hi, hRi.fieldsR i hi⟩

/-- C9 witness: the property applied to the all-nil construction and to
the final state of the collector-only trial on it. -/
theorem fields_in_heap_range_witness :
    GraphOK gW ∧ (PtrOK (getObj cW.mem 3).l ∧ PtrOK (getObj cW.mem 3).r) :=
  ⟨fields_in_heap_range.1 (fun _ => 0) (fun _ => 0)
      (fun _ => by simp [memLen, globalRoot])
      (fun _ => by simp [memLen, globalRoot]),
    fields_in_heap_range.2 writeMarks writeRestarts gW cW (by decide)
      reach_cW 3 (by simp [memLen])⟩

theorem getD_mem_of_lt {l : List Bool} {j : Nat} (h : j < l.length) :
    l.getD j false ∈ l := by
  induction l generalizing j with
  | nil => simp at h
  | cons b t ih =>
    cases j with
    | zero => simp
    | succ j' =>
      simp only [List.getD_cons_succ]
      exact List.mem_cons_of_mem _ (ih (by simpa using h))

/-- C10: `ambReachableHeapPointer` is total on the program's six-slot
memory: the scratch mark from the global root always counts the root
itself, so `nreachable` is at least one, the ambiguous choice is drawn
from a nonempty candidate set, and for every contract-respecting choice
`x < nreachable` the selection loop returns a heap index in
`[globalRoot, len(mem))` reachable from the global root — the trailing
`panic("not reached")` branch is unreachable. -/
theorem ambReachable_total (mem : Mem) (hlen : mem.length = memLen) :
    1 ≤ countReachable mem ∧
    ∀ x, x < countReachable mem →
      ∃ p, ambReachableHeapPointer mem x = some p ∧
        globalRoot ≤ p ∧ p < memLen ∧ Reaches mem globalRoot p := by
  constructor
  · have hroot : isMarked (reachableFromRoot mem) globalRoot = true :=
      reachableFromRoot_root mem hlen
    unfold countReachable
    have hidx : ((reachableFromRoot mem).drop globalRoot).getD 0 false =
        true := by
      rw [getD_drop]
      exact hroot
    have hlen' : 0 < ((reachableFromRoot mem).drop globalRoot).length := by
      rw [List.length_drop, reachableFromRoot_length, hlen]
      simp [globalRoot, memLen]
    have hmem : (true : Bool) ∈ (reachableFromRoot mem).drop globalRoot := by
      rw [← hidx]
      exact getD_mem_of_lt hlen'
    have : (true : Bool) ∈
        ((reachableFromRoot mem).drop globalRoot).filter id := by
      rw [List.mem_filter]
      exact ⟨hmem, rfl⟩
    exact List.length_pos.mpr (fun hnil => by rw [hnil] at this; cases this)
  · intro x hx
    obtain ⟨p, hp⟩ := selectLoop_total _ x 0 hx
    obtain ⟨h3, h6, hr⟩ := amb_reachable_sound hlen hp
    exact ⟨p, hp, h3, h6, hr⟩

/-- C10 witness: on the all-nil graph exactly one heap object (the
global root) is reachable, and choice 0 selects it. -/
theorem ambReachable_total_witness :
    gW.length = memLen ∧
    (1 ≤ countReachable gW ∧
      ∀ x, x < countReachable gW →
        ∃ p, ambReachableHeapPointer gW x = some p ∧
          globalRoot ≤ p ∧ p < memLen ∧ Reaches gW globalRoot p) :=
  ⟨by decide, ambReachable_total gW (by decide)⟩

end Rescan
